import Mathlib

/-!
Verification of the yatr task runner core: dependency graph construction,
stage-partitioned execution plans, the executor loop, and the
content-addressable output cache.  Rust sources are embedded shallowly:
pure functions become Lean functions, the BLAKE3 finalizer and the
filesystem walk behind the source hash are abstracted as parameters, and
the tokio spawn/await structure of the executor is collapsed to the
deterministic order in which the source awaits its handles.
-/

namespace Yatr

/-! ## String byte order

Rust sorts environment entries with `sort_by_key(|(k, _)| *k)`, which
compares `&str` keys in byte order.  UTF-8 byte order coincides with code
point order, so we compare the code points of `String.data`.
-/

/-- Lexicographic comparison of character lists by code point. -/
def strListLe : List Char → List Char → Bool
  | [], _ => true
  | _ :: _, [] => false
  | a :: as, b :: bs =>
    if a.toNat < b.toNat then true
    else if b.toNat < a.toNat then false
    else strListLe as bs

/-- Byte-order comparison of strings, as Rust str comparison. -/
def strLe (a b : String) : Bool := strListLe a.data b.data

/-- Order on env entries used by the sort in compute_key: compare keys. -/
def keyLe (a b : String × String) : Prop := strLe a.1 b.1 = true

instance : DecidableRel keyLe := fun a b => by
  unfold keyLe; infer_instance

/-! ## Task configuration (src/config.rs, struct TaskConfig)

`env` models the HashMap as an association list whose order is the
(unspecified) iteration order; key sets of a HashMap are duplicate-free.
Paths are modelled as strings. -/

/-- Embeds `TaskConfig` from src/config.rs. -/
structure TaskConfig where
  desc : Option String := none
  run : List String := []
  script : Option String := none
  depends : List String := []
  parallel : Bool := false
  env : List (String × String) := []
  cwd : Option String := none
  shell : Option Bool := none
  foreground : Bool := false
  watch : List String := []
  sources : List String := []
  outputs : List String := []
  no_cache : Bool := false
  allow_failure : Bool := false
  timeout : Option Nat := none
deriving DecidableEq

/-! ## Cache (src/cache.rs)

`Cache::compute_key` feeds byte strings into a BLAKE3 hasher in a fixed
order and finalizes to the first 16 hex characters.  Feeding UTF-8 byte
strings one after another into the hasher is the same as hashing the
byte encoding of the concatenated string, so the hasher state is modelled
as the concatenation of all updates, and the finalizer
(BLAKE3 plus hex truncation) is an abstract parameter `H`.  The
filesystem walk in `hash_sources` is likewise abstracted as an oracle
`hashSrc` from the glob pattern list to either a digest string or a
Cache error (invalid glob). -/

/-- The env entries sorted by key, as `env_pairs.sort_by_key` in compute_key. -/
def sortEnv (env : List (String × String)) : List (String × String) :=
  List.insertionSort keyLe env

/-- Concatenation of the command strings fed to the hasher, in declared order. -/
def concatRun (cmds : List String) : String := cmds.foldl (fun a c => a ++ c) ""

/-- Concatenation of sorted env entries as fed to the hasher: key bytes then value bytes. -/
def envCat (env : List (String × String)) : String :=
  (sortEnv env).foldl (fun a kv => a ++ kv.1 ++ kv.2) ""

/-- Embeds `Cache::compute_key` (src/cache.rs lines 201-231): the full byte
stream given to the BLAKE3 hasher, in update order: task name, each command,
the script if present, sorted env entries, and, when `sources` is nonempty,
the source hash obtained from the oracle. -/
def keyInput (hashSrc : List String → Except String String)
    (task_name : String) (config : TaskConfig) : Except String String :=
  let base := task_name ++ concatRun config.run ++
    (match config.script with | some s => s | none => "") ++ envCat config.env
  if config.sources.isEmpty then Except.ok base
  else
    match hashSrc config.sources with
    | Except.error e => Except.error e
    | Except.ok h => Except.ok (base ++ h)

/-- `compute_key`: the abstract finalizer `H` (BLAKE3, first 16 hex chars)
applied to the hasher byte stream. -/
def compute_key (H : String → String) (hashSrc : List String → Except String String)
    (task_name : String) (config : TaskConfig) : Except String String :=
  match keyInput hashSrc task_name config with
  | Except.error e => Except.error e
  | Except.ok s => Except.ok (H s)

/-- Embeds `CacheEntry` from src/cache.rs; `created_at` is an abstract timestamp. -/
structure CacheEntry where
  key : String
  task : String
  created_at : Nat
  duration_ms : Nat
  output_size : Nat
deriving DecidableEq

/-- The cache directory contents: the `<key>.cache` output blobs and the
parsed `<key>.meta.json` sidecars, plus the enabled flag of `Cache`. -/
structure CacheState where
  enabled : Bool
  outputs : String → Option String
  metas : String → Option CacheEntry

/-- Embeds `Cache::get` (src/cache.rs lines 73-106): disabled caches miss,
then the key is computed, the output blob and metadata sidecar must both
exist, and a sidecar recorded for a different task name is treated as a miss. -/
def Cache.get (H : String → String) (hashSrc : List String → Except String String)
    (st : CacheState) (task_name : String) (config : TaskConfig) :
    Except String (Option String) :=
  if st.enabled = false then Except.ok none
  else
    match compute_key H hashSrc task_name config with
    | Except.error e => Except.error e
    | Except.ok key =>
      match st.outputs key with
      | none => Except.ok none
      | some out =>
        match st.metas key with
        | none => Except.ok none
        | some entry =>
          if entry.task ≠ task_name then Except.ok none
          else Except.ok (some out)

/-- Embeds `Cache::put` (src/cache.rs lines 109-139): no-op when disabled,
otherwise writes the output blob and then the metadata sidecar, with
`duration_ms = 0` (the TODO in the source) and `output_size` the output length. -/
def Cache.put (H : String → String) (hashSrc : List String → Except String String)
    (st : CacheState) (task_name : String) (config : TaskConfig)
    (output : String) (now : Nat) : Except String CacheState :=
  if st.enabled = false then Except.ok st
  else
    match compute_key H hashSrc task_name config with
    | Except.error e => Except.error e
    | Except.ok key =>
      Except.ok
        { st with
          outputs := fun k => if k = key then some output else st.outputs k
          metas := fun k =>
            if k = key then some ⟨key, task_name, now, 0, output.length⟩
            else st.metas k }

/-! ## Execution plan (src/graph.rs, ExecutionPlan::from_tasks, lines 219-258)

Tasks are identified by name; the dependency function `deps` gives the
direct dependencies of a task, as `TaskGraph::dependencies` does.  The
input list is the `execution_order` sequence: a topological order of the
target and its transitive dependencies. -/

/-- The inner double loop of `from_tasks` computing `target_group`: scan the
groups in order with their index and set the accumulator to `i + 1` whenever
group `i` contains a direct dependency. -/
def targetGroup (deps : List String) : List (List String) → Nat → Nat → Nat
  | [], _, acc => acc
  | g :: gs, i, acc =>
    targetGroup deps gs (i + 1)
      (g.foldl (fun a t => if deps.contains t then i + 1 else a) acc)

/-- Pad the group list with empty groups until index `k` exists, then push
`x` onto group `k`: the `while` loop plus `parallel_groups[target_group].push`. -/
def appendAt : List (List String) → Nat → String → List (List String)
  | [], 0, x => [[x]]
  | [], n + 1, x => [] :: appendAt [] n x
  | g :: gs, 0, x => (g ++ [x]) :: gs
  | g :: gs, n + 1, x => g :: appendAt gs n x

/-- One iteration of the `from_tasks` loop: compute the target group of the
task and place it there. -/
def planStep (deps : String → List String) (groups : List (List String))
    (t : String) : List (List String) :=
  appendAt groups (targetGroup (deps t) groups 0 0) t

/-- Embeds `ExecutionPlan::from_tasks`: fold the ordered task list, placing
each task in the group after the last group holding one of its direct
dependencies. -/
def fromTasks (deps : String → List String) (tasks : List String) : List (List String) :=
  tasks.foldl (planStep deps) []

/-- Membership of task `t` in stage `i` of a group list. -/
def memStage (groups : List (List String)) (i : Nat) (t : String) : Prop :=
  t ∈ groups.getD i []

instance (groups : List (List String)) (i : Nat) (t : String) :
    Decidable (memStage groups i t) := by
  unfold memStage; infer_instance

/-- The hypothesis `execution_order` guarantees for its output: every direct
dependency of a listed task occurs strictly before it in the list. -/
def TopoOrder (deps : String → List String) (order : List String) : Prop :=
  ∀ p₁ t p₂, order = p₁ ++ t :: p₂ → ∀ d ∈ deps t, d ∈ p₁

/-- Direct dependency relation used for stage independence: `a` is a direct
dependency of `b`. -/
def DepRel (deps : String → List String) (a b : String) : Prop := a ∈ deps b

/-- Decidable check for `TopoOrder` on concrete lists: every dependency of
each element is contained in the part already seen. -/
def topoCheck (deps : String → List String) : List String → List String → Bool
  | _, [] => true
  | seen, t :: rest =>
    (deps t).all (fun d => seen.contains d) && topoCheck deps (seen ++ [t]) rest

/-! ## Executor stage loop (src/executor.rs, Executor::execute, lines 85-171)

Subprocess outcomes are an oracle `run : String → Bool` giving each task
name its success bit; `allowF` is the `allow_failure` lookup through the
graph.  Handles of one group are all spawned before any is awaited, and they
are awaited in spawn order, which is the order results are pushed. -/

/-- The name/success projection of `TaskResult` relevant to the stage loop. -/
structure TRes where
  name : String
  success : Bool
deriving DecidableEq

/-- Executor errors surfaced by `execute`. -/
inductive ExecErr where
  | taskFailed (task : String) (code : Nat)
deriving DecidableEq

/-- The await loop over one group: push each result, and on the first result
with `success = false` whose task does not allow failure, abort with
`TaskFailed(task, code = 1)`. -/
def awaitGroup (allowF : String → Bool) : List TRes → List TRes → Except ExecErr (List TRes)
  | [], acc => Except.ok acc
  | r :: rest, acc =>
    if r.success = false ∧ allowF r.name = false then
      Except.error (ExecErr.taskFailed r.name 1)
    else awaitGroup allowF rest (acc ++ [r])

/-- The stage loop of `execute`: run the groups in order, each group being
spawned wholesale and awaited in spawn order; a failed group aborts the
remaining groups. -/
def executeGroups (run : String → Bool) (allowF : String → Bool) :
    List (List String) → List TRes → Except ExecErr (List TRes)
  | [], acc => Except.ok acc
  | g :: gs, acc =>
    match awaitGroup allowF (g.map fun n => ⟨n, run n⟩) acc with
    | Except.error e => Except.error e
    | Except.ok acc2 => executeGroups run allowF gs acc2

/-- Embeds `Executor::execute` on the plan built from the execution order. -/
def execute (run : String → Bool) (allowF : String → Bool)
    (deps : String → List String) (order : List String) : Except ExecErr (List TRes) :=
  executeGroups run allowF (fromTasks deps order) []

/-- The set of tasks whose workers are spawned by `execute`: every task of
every group up to and including the first group holding a non-allowed
failure; later groups are never started. -/
def executedTasks (run : String → Bool) (allowF : String → Bool) :
    List (List String) → List String
  | [] => []
  | g :: gs =>
    if g.any (fun n => run n = false ∧ allowF n = false) then g
    else g ++ executedTasks run allowF gs

/-! ## Per-task execution (src/executor.rs, lines 174-318)

A single command invocation (`execute_command`, a subprocess spawn) is an
oracle `runCmd` from the command string to its captured stdout or an error
message; the script engine is an oracle `runScript`.  Durations are not
modelled. -/

/-- Embeds the loop of `execute_commands_sequential` (lines 269-285): run
each command in declared order, appending its stdout and a newline; an
error aborts the remaining commands. -/
def execSeqAux (runCmd : String → Except String String) :
    List String → String → Except String String
  | [], acc => Except.ok acc
  | cmd :: rest, acc =>
    match runCmd cmd with
    | Except.error e => Except.error e
    | Except.ok out => execSeqAux runCmd rest (acc ++ out ++ "\n")

/-- `execute_commands_sequential`. -/
def execCommandsSequential (runCmd : String → Except String String)
    (cmds : List String) : Except String String :=
  execSeqAux runCmd cmds ""

/-- The await loop of `execute_commands_parallel` (lines 288-318): all
handles already hold their outcome; they are awaited in spawn order, which
is declaration order, appending stdout and a newline; the first error in
that order is returned. -/
def execParAux : List (Except String String) → String → Except String String
  | [], acc => Except.ok acc
  | Except.error e :: _, _ => Except.error e
  | Except.ok out :: rest, acc => execParAux rest (acc ++ out ++ "\n")

/-- `execute_commands_parallel`: spawn every command (the map applies the
oracle to all of them), then await in spawn order. -/
def execCommandsParallel (runCmd : String → Except String String)
    (cmds : List String) : Except String String :=
  execParAux (cmds.map runCmd) ""

/-- Modelled from the spec (section 4.4 dispatch): the spec requires the
parallel-command output to concatenate stdouts in completion order
separated by a newline; completion times are a parameter.  This definition
follows the words of the spec, for comparison with
`execCommandsParallel`, which embeds the source. -/
def specCompletionOrderOutput (outputs : List String) (ctimes : List Nat) : String :=
  String.intercalate "\n"
    ((List.insertionSort (fun a b : String × Nat => a.2 ≤ b.2) (outputs.zip ctimes)).map
      Prod.fst)

/-- The fields of `TaskResult` relevant to per-task execution. -/
structure TaskOutcome where
  name : String
  success : Bool
  cached : Bool
  output : Option String
  error : Option String
deriving DecidableEq

/-- Embeds `Executor::execute_single_task` (lines 174-250): probe the cache
unless forced or `no_cache`, then dispatch to the script engine, the
parallel command runner, or the sequential command runner; a successful
output is written back to the cache (write failures swallowed), an error is
captured into a failed `TaskResult` rather than thrown.  A cache read error
propagates.  Returns the outcome together with the cache state after the
task. -/
def executeSingleTask (H : String → String)
    (hashSrc : List String → Except String String)
    (runCmd : String → Except String String)
    (runScript : String → List (String × String) → Except String String)
    (globalEnv : List (String × String)) (force : Bool)
    (cache : Option CacheState) (name : String) (config : TaskConfig)
    (now : Nat) : Except String (TaskOutcome × Option CacheState) :=
  let probe : Except String (Option String) :=
    if force then Except.ok none
    else
      match cache with
      | none => Except.ok none
      | some st =>
        if config.no_cache then Except.ok none
        else Cache.get H hashSrc st name config
  match probe with
  | Except.error e => Except.error e
  | Except.ok (some out) =>
    Except.ok (⟨name, true, true, some out, none⟩, cache)
  | Except.ok none =>
    let env := globalEnv ++ config.env
    let r : Except String String :=
      match config.script with
      | some s => runScript s env
      | none =>
        if config.parallel then execCommandsParallel runCmd config.run
        else execCommandsSequential runCmd config.run
    match r with
    | Except.ok out =>
      let cache2 : Option CacheState :=
        match cache with
        | none => none
        | some st =>
          if config.no_cache then some st
          else
            match Cache.put H hashSrc st name config out now with
            | Except.ok st2 => some st2
            | Except.error _ => some st
      Except.ok (⟨name, true, false, some out, none⟩, cache2)
    | Except.error e =>
      Except.ok (⟨name, false, false, none, some e⟩, cache)

/-! ## Graph construction (src/graph.rs, TaskGraph::from_config, lines 29-68)

The task map is an association list in its (unspecified) HashMap iteration
order, with duplicate-free names.  Edges run from dependency to dependent.
`is_cyclic_directed` is embedded as a Kahn-style peeling decision
procedure, proved below to decide the existence of a directed cycle, and
`find_cycle_description` as the depth-first witness search of the source. -/

/-- Graph-facing error type of `TaskGraph::from_config`. -/
inductive GraphErr where
  | taskNotFound (name : String) (available : List String)
  | cyclicDependency (cycle : String)
deriving DecidableEq

/-- A task map: association list from name to config. -/
abbrev TaskMap := List (String × TaskConfig)

/-- `config.task_names()`: the names in map iteration order. -/
def taskNames (tasks : TaskMap) : List String := tasks.map Prod.fst

/-- The edge-addition loop: the first dependency name (scanning tasks, then
their `depends`, in order) that is not a defined task. -/
def findMissing (names : List String) : TaskMap → Option String
  | [] => none
  | (_, tc) :: rest =>
    match tc.depends.find? (fun d => (names.contains d) = false) with
    | some d => some d
    | none => findMissing names rest

/-- Edge `u → v` of the task graph: `v` declares `u` in `depends`. -/
def edgeB (tasks : TaskMap) (u v : String) : Bool :=
  tasks.any fun p => p.1 = v ∧ p.2.depends.contains u

/-- Propositional edge relation. -/
def Edge (tasks : TaskMap) (u v : String) : Prop := edgeB tasks u v = true

/-- The graph has a directed cycle (a self-loop being the length-one case). -/
def Cyclic (tasks : TaskMap) : Prop := ∃ a, Relation.TransGen (Edge tasks) a a

/-- Does node `v` have a predecessor inside `S`? -/
def hasPred (tasks : TaskMap) (S : List String) (v : String) : Bool :=
  S.any fun u => edgeB tasks u v

/-- Kahn-style peeling: repeatedly remove a node with no predecessor in the
remaining set.  With fuel `|S|` this reaches either the empty list or a
nonempty set in which every node has a predecessor. -/
def peel (tasks : TaskMap) : Nat → List String → List String
  | 0, S => S
  | fuel + 1, S =>
    match S.find? (fun v => hasPred tasks S v = false) with
    | none => S
    | some v => peel tasks fuel (S.erase v)

/-- Embeds `is_cyclic_directed` on the task graph: peeling leaves a residue
exactly on cyclic graphs. -/
def isCyclicB (tasks : TaskMap) : Bool :=
  !(peel tasks (taskNames tasks).length (taskNames tasks)).isEmpty

/-- Out-neighbors of `u`: the dependents of `u`, in map order. -/
def outNeighbors (tasks : TaskMap) (u : String) : List String :=
  tasks.filterMap fun p => if p.2.depends.contains u then some p.1 else none

/-- The neighbor loop of `dfs_find_cycle` (src/graph.rs lines 147-170),
with the recursive visit passed as `recur`.  State is the visited set and
the current path; the triple returned is (found, visited, path).  A
neighbor equal to the search target with a path longer than one closes the
cycle; otherwise unvisited neighbors are pushed, visited and explored, and
popped again when the exploration fails. -/
def dfsNeighAux (target : String)
    (recur : String → List String → List String → Bool × List String × List String) :
    List String → List String → List String → Bool × List String × List String
  | [], visited, path => (false, visited, path)
  | n :: rest, visited, path =>
    if n = target ∧ 1 < path.length then (true, visited, path ++ [target])
    else if n ∈ visited then dfsNeighAux target recur rest visited path
    else
      match recur n (n :: visited) (path ++ [n]) with
      | (true, visited2, path2) => (true, visited2, path2)
      | (false, visited2, path2) => dfsNeighAux target recur rest visited2 path2.dropLast

/-- `dfs_find_cycle`, with fuel bounding the recursion depth; each level of
recursion inserts a fresh node into the visited set, so fuel
`|names| + 1` never runs out. -/
def dfsVisit (tasks : TaskMap) (target : String) :
    Nat → String → List String → List String → Bool × List String × List String
  | 0, _, visited, path => (false, visited, path)
  | fuel + 1, current, visited, path =>
    dfsNeighAux target (dfsVisit tasks target fuel)
      (outNeighbors tasks current) visited path

/-- The start loop of `find_cycle_description`: try each node as its own
search target with a fresh visited set and the path seeded with its name. -/
def firstCycleFromStarts (tasks : TaskMap) : List String → Option (List String)
  | [] => none
  | name :: rest =>
    match dfsVisit tasks name ((taskNames tasks).length + 1) name [] [name] with
    | (true, _, path) => some path
    | (false, _, _) => firstCycleFromStarts tasks rest

/-- Embeds `find_cycle_description` (src/graph.rs lines 130-145). -/
def findCycleDescription (tasks : TaskMap) : String :=
  match firstCycleFromStarts tasks (taskNames tasks) with
  | some path => String.intercalate " -> " path
  | none => "Unknown cycle"

/-- Embeds `TaskGraph::from_config` (src/graph.rs lines 29-68): nodes are
added for every task, the edge loop fails with `TaskNotFound` carrying
`config.task_names()` on the first undefined dependency, and a cyclic
graph fails with `CyclicDependency` carrying the witness string. -/
def from_config (tasks : TaskMap) : Except GraphErr TaskMap :=
  match findMissing (taskNames tasks) tasks with
  | some d => Except.error (GraphErr.taskNotFound d (taskNames tasks))
  | none =>
    if isCyclicB tasks then
      Except.error (GraphErr.cyclicDependency (findCycleDescription tasks))
    else Except.ok tasks

/-- Sorted task names, as the spec (not the source) wants them in
`TaskNotFound.available`. -/
def sortedNames (tasks : TaskMap) : List String :=
  List.insertionSort (fun a b => strLe a b = true) (taskNames tasks)

/-! ## Concrete instances used to evaluate the model -/

/-- An identity stand-in for the abstract finalizer, used when a concrete
hash function is needed; any function works for the properties at stake. -/
def idH : String → String := fun s => s

/-- A source-hash oracle for configs with empty `sources`. -/
def okSrc : List String → Except String String := fun _ => Except.ok ""

/-- An empty enabled cache directory. -/
def stEmpty : CacheState := ⟨true, fun _ => none, fun _ => none⟩

/-- A config whose single command is the string ab. -/
def cfgCat1 : TaskConfig := { run := ["ab"] }

/-- A config with the same command bytes split into two commands. -/
def cfgCat2 : TaskConfig := { run := ["a", "b"] }

/-- Env written in one insertion order. -/
def cfgEnvA : TaskConfig := { env := [("A", "1"), ("B", "2")] }

/-- The same env written in the other insertion order, other key-irrelevant
fields differing as well. -/
def cfgEnvB : TaskConfig := { env := [("B", "2"), ("A", "1")], desc := some "d", timeout := some 5 }

/-- A two-node cycle. -/
def cycCfg : TaskMap := [("a", { depends := ["b"] }), ("b", { depends := ["a"] })]

/-- A map whose iteration order is not sorted and which lists an undefined
dependency. -/
def missingCfg : TaskMap := [("b", { depends := ["z"] }), ("a", { run := ["x"] })]

/-- A linear chain used to exercise the executor. -/
def chainDeps : String → List String := fun n => if n = "b" then ["a"] else []

/-- A task-success oracle in which exactly the task named a fails. -/
def runFailA : String → Bool := fun n => !(n == "a")

/-- A command oracle: command c1 prints A, anything else prints B. -/
def parRun : String → Except String String :=
  fun c => if c = "c1" then Except.ok "A" else Except.ok "B"

/-- The diamond dependency function: b and c depend on a, d on b and c. -/
def diamondDeps : String → List String := fun n =>
  if n = "b" then ["a"] else if n = "c" then ["a"] else if n = "d" then ["b", "c"] else []

/-- A topological order of the diamond. -/
def diamondOrder : List String := ["a", "b", "c", "d"]

/-! # Theorems -/

/-! ## Byte-order lemmas -/

theorem strListLe_head_le {a b : Char} {as bs : List Char}
    (h : strListLe (a :: as) (b :: bs) = true) : a.toNat ≤ b.toNat := by
  by_cases h1 : a.toNat < b.toNat
  · omega
  · by_cases h2 : b.toNat < a.toNat
    · simp [strListLe, h1, h2] at h
    · omega

theorem strListLe_cons_of_eq {a b : Char} (h : a.toNat = b.toNat) (as bs : List Char) :
    strListLe (a :: as) (b :: bs) = strListLe as bs := by
  simp [strListLe, h]

theorem strListLe_total : ∀ as bs : List Char, strListLe as bs = true ∨ strListLe bs as = true
  | [], _ => Or.inl rfl
  | _ :: _, [] => Or.inr rfl
  | a :: as, b :: bs => by
    rcases Nat.lt_trichotomy a.toNat b.toNat with h | h | h
    · exact Or.inl (by simp [strListLe, h])
    · rw [strListLe_cons_of_eq h, strListLe_cons_of_eq h.symm]
      exact strListLe_total as bs
    · exact Or.inr (by simp [strListLe, h])

theorem strListLe_trans : ∀ as bs cs : List Char,
    strListLe as bs = true → strListLe bs cs = true → strListLe as cs = true
  | [], _, _, _, _ => rfl
  | _ :: _, [], _, h1, _ => by simp [strListLe] at h1
  | _ :: _, _ :: _, [], _, h2 => by simp [strListLe] at h2
  | a :: as, b :: bs, c :: cs, h1, h2 => by
    have hab := strListLe_head_le h1
    have hbc := strListLe_head_le h2
    rcases Nat.lt_trichotomy a.toNat c.toNat with h | h | h
    · simp [strListLe, h]
    · have h1n : a.toNat = b.toNat := by omega
      have h2n : b.toNat = c.toNat := by omega
      rw [strListLe_cons_of_eq h1n] at h1
      rw [strListLe_cons_of_eq h2n] at h2
      rw [strListLe_cons_of_eq h]
      exact strListLe_trans as bs cs h1 h2
    · exact absurd h (by omega)

theorem strListLe_antisymm : ∀ as bs : List Char,
    strListLe as bs = true → strListLe bs as = true → as = bs
  | [], [], _, _ => rfl
  | [], _ :: _, _, h2 => by simp [strListLe] at h2
  | _ :: _, [], h1, _ => by simp [strListLe] at h1
  | a :: as, b :: bs, h1, h2 => by
    have hab := strListLe_head_le h1
    have hba := strListLe_head_le h2
    have hn : a.toNat = b.toNat := by omega
    have ha : a = b := Char.ext (UInt32.ext hn)
    rw [strListLe_cons_of_eq hn] at h1
    rw [strListLe_cons_of_eq hn.symm] at h2
    rw [ha, strListLe_antisymm as bs h1 h2]

theorem strLe_total (a b : String) : strLe a b = true ∨ strLe b a = true :=
  strListLe_total a.data b.data

theorem strLe_trans {a b c : String} (h1 : strLe a b = true) (h2 : strLe b c = true) :
    strLe a c = true := strListLe_trans a.data b.data c.data h1 h2

theorem strLe_antisymm {a b : String} (h1 : strLe a b = true) (h2 : strLe b a = true) :
    a = b := String.ext (strListLe_antisymm a.data b.data h1 h2)

/-! ## Canonicity of the env sort -/

theorem sortEnv_sorted (env : List (String × String)) : List.Sorted keyLe (sortEnv env) := by
  haveI : IsTotal (String × String) keyLe := ⟨fun a b => strLe_total a.1 b.1⟩
  haveI : IsTrans (String × String) keyLe := ⟨fun _ _ _ h1 h2 => strLe_trans h1 h2⟩
  exact List.sorted_insertionSort keyLe env

theorem sortEnv_perm (env : List (String × String)) : (sortEnv env).Perm env :=
  List.perm_insertionSort keyLe env

/-- Two env maps with the same entries and duplicate-free keys sort to the
same list: the sorted entry sequence fed to the hasher is canonical. -/
theorem sortEnv_eq_of_perm {e1 e2 : List (String × String)} (hp : e1.Perm e2)
    (hnd : (e1.map Prod.fst).Nodup) : sortEnv e1 = sortEnv e2 := by
  have h1 : (sortEnv e1).Perm e1 := sortEnv_perm e1
  have h2 : (sortEnv e2).Perm e2 := sortEnv_perm e2
  have h12 : (sortEnv e1).Perm (sortEnv e2) := h1.trans (hp.trans h2.symm)
  have hnd1 : ((sortEnv e1).map Prod.fst).Nodup := (h1.map Prod.fst).nodup_iff.mpr hnd
  have hnd2e : (e2.map Prod.fst).Nodup := (hp.map Prod.fst).nodup_iff.mp hnd
  have hnd2 : ((sortEnv e2).map Prod.fst).Nodup := (h2.map Prod.fst).nodup_iff.mpr hnd2e
  have hp1 : List.Pairwise (fun x y : String × String => keyLe x y ∧ x.1 ≠ y.1) (sortEnv e1) :=
    (sortEnv_sorted e1).and (List.pairwise_map.mp hnd1)
  have hp2 : List.Pairwise (fun x y : String × String => keyLe x y ∧ x.1 ≠ y.1) (sortEnv e2) :=
    (sortEnv_sorted e2).and (List.pairwise_map.mp hnd2)
  haveI : IsAntisymm (String × String) (fun x y => keyLe x y ∧ x.1 ≠ y.1) :=
    ⟨fun _ _ hxy hyx => absurd (strLe_antisymm hxy.1 hyx.1) hxy.2⟩
  exact List.eq_of_perm_of_sorted h12 hp1 hp2

/-! ## Cache lemmas -/

/-- After a `put`, a `get` that computes the same key returns the stored
output: the sidecar written by `put` carries the requested task name. -/
theorem cache_put_get {H : String → String} {hashSrc : List String → Except String String}
    {st : CacheState} {n : String} {c c2 : TaskConfig} {o : String} {now : Nat} {k : String}
    (hen : st.enabled = true)
    (hkc : compute_key H hashSrc n c = Except.ok k)
    (hkc2 : compute_key H hashSrc n c2 = Except.ok k) :
    (match Cache.put H hashSrc st n c o now with
     | Except.ok st2 => Cache.get H hashSrc st2 n c2
     | Except.error e => Except.error e) = Except.ok (some o) := by
  unfold Cache.put Cache.get
  simp [hen, hkc, hkc2]

/-! ## Claim C4 -/

/-- Claim C4: compute_key is a deterministic function of the task name, the
command list, the script, the env viewed as an unordered map, and the
source-hash; two configs that agree on those (the env up to entry order,
with duplicate-free keys as in a HashMap) and are otherwise arbitrary get
the same key.  The BLAKE3 finalizer producing the 16-hex key is abstract,
so equality of keys is equality after any finalizer. -/
theorem compute_key_determinism (H : String → String)
    (hashSrc : List String → Except String String) (n : String) (c1 c2 : TaskConfig)
    (hrun : c1.run = c2.run) (hscript : c1.script = c2.script)
    (hsources : c1.sources = c2.sources) (henv : c1.env.Perm c2.env)
    (hnd : (c1.env.map Prod.fst).Nodup) :
    compute_key H hashSrc n c1 = compute_key H hashSrc n c2 := by
  unfold compute_key keyInput envCat
  rw [hrun, hscript, hsources, sortEnv_eq_of_perm henv hnd]

/-- Witness for C4 at a concrete input: the two insertion orders of the same
env, with other key-irrelevant fields differing, hash identically. -/
theorem compute_key_determinism_witness :
    cfgEnvA.env ≠ cfgEnvB.env ∧
    compute_key idH okSrc "t" cfgEnvA = compute_key idH okSrc "t" cfgEnvB :=
  ⟨by decide,
    compute_key_determinism idH okSrc "t" cfgEnvA cfgEnvB rfl rfl rfl (by decide) (by decide)⟩

/-! ## Claim C10 -/

/-- Claim C10: compute_key is not injective in the command-list structure:
command strings, script and env bytes are fed without separators, so two
configs with equal name, equal byte-concatenation of their commands, equal
script, equal env and empty sources get the identical key, and an output
stored under one is returned by a get under the other. -/
theorem compute_key_concat_collision (H : String → String)
    (hashSrc : List String → Except String String) (st : CacheState)
    (n o : String) (now : Nat) (c1 c2 : TaskConfig) (hen : st.enabled = true)
    (hcat : concatRun c1.run = concatRun c2.run) (hscript : c1.script = c2.script)
    (henv : c1.env = c2.env) (hs1 : c1.sources = []) (hs2 : c2.sources = []) :
    compute_key H hashSrc n c1 = compute_key H hashSrc n c2 ∧
    (match Cache.put H hashSrc st n c1 o now with
     | Except.ok st2 => Cache.get H hashSrc st2 n c2
     | Except.error e => Except.error e) = Except.ok (some o) := by
  have hk : compute_key H hashSrc n c1 = compute_key H hashSrc n c2 := by
    unfold compute_key keyInput
    rw [hcat, hscript, henv, hs1, hs2]
  refine ⟨hk, ?_⟩
  have hok : ∃ k, compute_key H hashSrc n c1 = Except.ok k := by
    simp [compute_key, keyInput, hs1]
  obtain ⟨k, hkk⟩ := hok
  exact cache_put_get hen hkk (hk.symm.trans hkk)

/-- Witness for C10 at run equal to ab versus a, b. -/
theorem compute_key_concat_collision_witness :
    cfgCat1.run ≠ cfgCat2.run ∧
    (compute_key idH okSrc "t" cfgCat1 = compute_key idH okSrc "t" cfgCat2 ∧
      (match Cache.put idH okSrc stEmpty "t" cfgCat1 "out" 0 with
       | Except.ok st2 => Cache.get idH okSrc st2 "t" cfgCat2
       | Except.error e => Except.error e) = Except.ok (some "out")) :=
  ⟨by decide,
    compute_key_concat_collision idH okSrc stEmpty "t" "out" 0 cfgCat1 cfgCat2
      rfl (by decide) rfl rfl rfl rfl⟩

/-! ## Claim C3 -/

/-- Claim C3, amended: with an enabled cache and unchanged inputs (same
key-relevant fields, same filesystem oracle), put followed by get returns
the stored output; and a change that alters the computed key misses,
provided the new key has no prior entry.  The original claim, that changing
any component participating in key derivation invalidates the hit, is
refuted by the counterexample below. -/
theorem cache_round_trip (H : String → String)
    (hashSrc : List String → Except String String) (st : CacheState)
    (n o : String) (now : Nat) (c : TaskConfig) (k : String)
    (hen : st.enabled = true) (hk : compute_key H hashSrc n c = Except.ok k) :
    ((match Cache.put H hashSrc st n c o now with
      | Except.ok st2 => Cache.get H hashSrc st2 n c
      | Except.error e => Except.error e) = Except.ok (some o)) ∧
    (∀ c2 k2, compute_key H hashSrc n c2 = Except.ok k2 → k2 ≠ k →
      st.outputs k2 = none →
      (match Cache.put H hashSrc st n c o now with
       | Except.ok st2 => Cache.get H hashSrc st2 n c2
       | Except.error e => Except.error e) = Except.ok none) := by
  constructor
  · exact cache_put_get hen hk hk
  · intro c2 k2 hk2 hne hout
    unfold Cache.put Cache.get
    simp [hen, hk, hk2, hne, hout]

/-- Witness for C3 at a concrete put/get pair and a concrete key change. -/
theorem cache_round_trip_witness :
    ((match Cache.put idH okSrc stEmpty "t" cfgCat1 "out" 0 with
      | Except.ok st2 => Cache.get idH okSrc st2 "t" cfgCat1
      | Except.error e => Except.error e) = Except.ok (some "out")) ∧
    ((match Cache.put idH okSrc stEmpty "t" cfgCat1 "out" 0 with
      | Except.ok st2 => Cache.get idH okSrc st2 "t" { run := ["zz"] }
      | Except.error e => Except.error e) = Except.ok none) :=
  ⟨(cache_round_trip idH okSrc stEmpty "t" "out" 0 cfgCat1 "tab" rfl rfl).1,
    (cache_round_trip idH okSrc stEmpty "t" "out" 0 cfgCat1 "tab" rfl rfl).2
      { run := ["zz"] } "tzz" rfl (by decide) rfl⟩

/-- Counterexample to C3 as stated: the command list, a component that
participates in key derivation, changes between put and get, yet get
still returns the previously stored output, because the two command lists
feed identical bytes to the hasher. -/
theorem cache_round_trip_counterexample :
    cfgCat1.run ≠ cfgCat2.run ∧
    (match Cache.put idH okSrc stEmpty "t" cfgCat1 "out" 0 with
     | Except.ok st2 => Cache.get idH okSrc st2 "t" cfgCat2
     | Except.error e => Except.error e) = Except.ok (some "out") := by
  constructor
  · decide
  · rfl

/-! ## Execution-plan lemmas -/

theorem innerFold_eq (deps : List String) (i : Nat) :
    ∀ (g : List String) (acc : Nat),
      g.foldl (fun a t => if deps.contains t then i + 1 else a) acc =
        if g.any (fun t => deps.contains t) then i + 1 else acc
  | [], acc => by simp
  | t :: ts, acc => by
    rw [List.foldl_cons, List.any_cons, innerFold_eq deps i ts]
    by_cases h : t ∈ deps
    · simp [h]
    · simp [h]

/-- The running maximum never drops below an accumulator that is at most
the next assignment value. -/
theorem targetGroup_ge_acc (deps : List String) :
    ∀ (gs : List (List String)) (i acc : Nat), acc ≤ i + 1 →
      acc ≤ targetGroup deps gs i acc
  | [], _, _, _ => le_refl _
  | g :: gs, i, acc, h => by
    rw [targetGroup, innerFold_eq]
    by_cases hany : g.any (fun t => deps.contains t) = true
    · rw [if_pos hany]
      have := targetGroup_ge_acc deps gs (i + 1) (i + 1) (by omega)
      omega
    · rw [if_neg hany]
      exact targetGroup_ge_acc deps gs (i + 1) acc (by omega)

/-- If stage `j` of the scanned groups contains a direct dependency, the
computed target group exceeds the running index plus `j`. -/
theorem targetGroup_gt (deps : List String) :
    ∀ (gs : List (List String)) (j : Nat) (d : String), d ∈ gs.getD j [] →
      deps.contains d = true → ∀ (i acc : Nat), acc ≤ i + 1 →
        i + j < targetGroup deps gs i acc
  | [], j, d, hj, _, _, _, _ => by simp [List.getD_nil] at hj
  | g :: gs, 0, d, hj, hd, i, acc, hacc => by
    rw [List.getD_cons_zero] at hj
    rw [targetGroup, innerFold_eq]
    have hany : g.any (fun t => deps.contains t) = true :=
      List.any_eq_true.mpr ⟨d, hj, hd⟩
    rw [if_pos hany]
    have := targetGroup_ge_acc deps gs (i + 1) (i + 1) (by omega)
    omega
  | g :: gs, j + 1, d, hj, hd, i, acc, hacc => by
    rw [List.getD_cons_succ] at hj
    rw [targetGroup, innerFold_eq]
    by_cases hany : g.any (fun t => deps.contains t) = true
    · rw [if_pos hany]
      have := targetGroup_gt deps gs j d hj hd (i + 1) (i + 1) (by omega)
      omega
    · rw [if_neg hany]
      have := targetGroup_gt deps gs j d hj hd (i + 1) acc (by omega)
      omega

theorem appendAt_getD (x : String) :
    ∀ (G : List (List String)) (k i : Nat),
      (appendAt G k x).getD i [] =
        if i = k then G.getD k [] ++ [x] else G.getD i []
  | [], 0, 0 => by simp [appendAt]
  | [], 0, i + 1 => by simp [appendAt]
  | [], k + 1, 0 => by simp [appendAt]
  | [], k + 1, i + 1 => by
    rw [appendAt, List.getD_cons_succ, appendAt_getD x [] k i]
    simp
  | g :: gs, 0, 0 => by simp [appendAt]
  | g :: gs, 0, i + 1 => by simp [appendAt]
  | g :: gs, k + 1, 0 => by simp [appendAt]
  | g :: gs, k + 1, i + 1 => by
    rw [appendAt, List.getD_cons_succ, List.getD_cons_succ, List.getD_cons_succ,
      appendAt_getD x gs k i]
    simp

theorem appendAt_mem_getD {x t : String} {G : List (List String)} {k i : Nat} :
    t ∈ (appendAt G k x).getD i [] ↔ (t ∈ G.getD i [] ∨ (t = x ∧ i = k)) := by
  rw [appendAt_getD]
  by_cases h : i = k
  · subst h; simp
  · simp [h]

theorem appendAt_flatten_perm (x : String) :
    ∀ (G : List (List String)) (k : Nat),
      (appendAt G k x).flatten.Perm (G.flatten ++ [x])
  | [], 0 => by simp [appendAt]
  | [], k + 1 => by
    rw [appendAt, List.flatten_cons]
    simpa using appendAt_flatten_perm x [] k
  | g :: gs, 0 => by
    rw [appendAt, List.flatten_cons, List.flatten_cons, List.append_assoc,
      List.append_assoc]
    exact List.Perm.append_left g List.perm_append_comm
  | g :: gs, k + 1 => by
    rw [appendAt, List.flatten_cons, List.flatten_cons, List.append_assoc]
    exact (appendAt_flatten_perm x gs k).append_left g

theorem mem_flatten_of_mem_getD {G : List (List String)} {i : Nat} {t : String}
    (h : t ∈ G.getD i []) : t ∈ G.flatten := by
  induction G generalizing i with
  | nil => simp [List.getD_nil] at h
  | cons g gs ih =>
    rw [List.flatten_cons, List.mem_append]
    match i with
    | 0 => exact Or.inl (by simpa using h)
    | i + 1 => exact Or.inr (ih (by simpa using h))

theorem mem_getD_of_mem_flatten {G : List (List String)} {t : String}
    (h : t ∈ G.flatten) : ∃ i, t ∈ G.getD i [] := by
  induction G with
  | nil => simp at h
  | cons g gs ih =>
    rw [List.flatten_cons, List.mem_append] at h
    rcases h with h | h
    · exact ⟨0, by simpa using h⟩
    · obtain ⟨i, hi⟩ := ih h
      exact ⟨i + 1, by simpa using hi⟩

/-- The fold invariant of `from_tasks`: after processing a prefix `p` of a
topologically ordered, duplicate-free task list, the groups hold exactly
the processed tasks and every direct dependency placed so far sits in a
strictly earlier group than its dependent. -/
theorem plan_fold_inv (deps : String → List String) (order : List String)
    (htopo : TopoOrder deps order) (hnd : order.Nodup) :
    ∀ (rest p : List String) (G : List (List String)), order = p ++ rest →
      G.flatten.Perm p →
      (∀ t i, t ∈ G.getD i [] → ∀ d ∈ deps t, ∀ j, d ∈ G.getD j [] → j < i) →
      ((rest.foldl (planStep deps) G).flatten.Perm order ∧
        (∀ t i, t ∈ (rest.foldl (planStep deps) G).getD i [] → ∀ d ∈ deps t,
          ∀ j, d ∈ (rest.foldl (planStep deps) G).getD j [] → j < i))
  | [], p, G, hpg, hperm, hinv => by
    rw [List.append_nil] at hpg
    subst hpg
    exact ⟨hperm, hinv⟩
  | x :: rest, p, G, hpg, hperm, hinv => by
    have hxp : x ∉ p := by
      intro hx
      rw [hpg, List.nodup_append] at hnd
      exact hnd.2.2 hx (List.mem_cons_self x rest)
    have hordx : order = (p ++ [x]) ++ rest := by
      rw [hpg, List.append_assoc, List.singleton_append]
    have hperm2 : (planStep deps G x).flatten.Perm (p ++ [x]) := by
      exact (appendAt_flatten_perm x G _).trans (hperm.append_right [x])
    refine plan_fold_inv deps order htopo hnd rest (p ++ [x]) (planStep deps G x)
      hordx hperm2 ?_
    intro t i hti d hd j hdj
    simp only [planStep] at hti hdj
    rw [appendAt_mem_getD] at hti hdj
    rcases hti with hti | ⟨htx, hik⟩
    · rcases hdj with hdj | ⟨hdx, hjk⟩
      · exact hinv t i hti d hd j hdj
      · -- an already placed task depends on the newly placed x: impossible
        exfalso
        rw [hdx] at hd
        have htp : t ∈ p := hperm.mem_iff.mp (mem_flatten_of_mem_getD hti)
        obtain ⟨p1, p2, hp12⟩ := List.append_of_mem htp
        have hord : order = p1 ++ t :: (p2 ++ x :: rest) := by
          rw [hpg, hp12]; simp
        have hdp1 : x ∈ p1 := htopo p1 t (p2 ++ x :: rest) hord x hd
        exact hxp (by rw [hp12]; exact List.mem_append.mpr (Or.inl hdp1))
    · rw [htx] at hd
      rw [hik]
      rcases hdj with hdj | ⟨hdx, hjk⟩
      · have hc : (deps x).contains d = true := List.elem_eq_true_of_mem hd
        have := targetGroup_gt (deps x) G j d hdj hc 0 0 (by omega)
        omega
      · -- x would depend on itself: contradicts the topological order
        exfalso
        rw [hdx] at hd
        exact hxp (htopo p x rest hpg x hd)

/-- Final form of the fold invariant on the whole execution order. -/
theorem fromTasks_inv (deps : String → List String) (order : List String)
    (htopo : TopoOrder deps order) (hnd : order.Nodup) :
    (fromTasks deps order).flatten.Perm order ∧
    (∀ t i, t ∈ (fromTasks deps order).getD i [] → ∀ d ∈ deps t,
      ∀ j, d ∈ (fromTasks deps order).getD j [] → j < i) := by
  refine plan_fold_inv deps order htopo hnd order [] [] rfl (by simp) ?_
  intro t i h
  simp [List.getD_nil] at h

/-- Strict stage growth along any chain of dependencies among placed tasks. -/
theorem stage_lt_of_transGen (deps : String → List String) (order : List String)
    (htopo : TopoOrder deps order) (hnd : order.Nodup) {a b : String}
    (h : Relation.TransGen (DepRel deps) a b) :
    ∀ ja jb, memStage (fromTasks deps order) ja a →
      memStage (fromTasks deps order) jb b → ja < jb := by
  obtain ⟨hperm, hinv⟩ := fromTasks_inv deps order htopo hnd
  induction h with
  | single hd =>
    intro ja jb ha hb
    exact hinv _ jb hb a hd ja ha
  | tail h1 hd ih =>
    intro ja jb ha hb
    rename_i c b'
    have hbo : b' ∈ order := hperm.mem_iff.mp (mem_flatten_of_mem_getD hb)
    obtain ⟨p1, p2, hp12⟩ := List.append_of_mem hbo
    have hco : c ∈ order := by
      have := htopo p1 b' p2 hp12 c hd
      rw [hp12]
      exact List.mem_append.mpr (Or.inl this)
    obtain ⟨jc, hjc⟩ := mem_getD_of_mem_flatten (hperm.mem_iff.mpr hco)
    exact lt_trans (ih ja jc ha hjc) (hinv b' jb hb c hd jc hjc)

/-- `topoCheck` is sound for `TopoOrder`. -/
theorem topoCheck_sound_aux (deps : String → List String) :
    ∀ (rest seen : List String), topoCheck deps seen rest = true →
      ∀ p1 t p2, rest = p1 ++ t :: p2 → ∀ d ∈ deps t, d ∈ seen ++ p1
  | [], _, _, p1, t, p2, hdec => by simp at hdec
  | r :: rest, seen, hchk, p1, t, p2, hdec => by
    rw [topoCheck, Bool.and_eq_true] at hchk
    match p1, hdec with
    | [], hdec =>
      intro d hd
      have ht : r = t := by simpa using congrArg (fun l => l.headD "") hdec
      rw [← ht] at hd
      have := (List.all_eq_true.mp hchk.1) d hd
      simpa using List.mem_of_elem_eq_true this
    | q :: p1, hdec =>
      intro d hd
      have hqr : r = q := by simpa using congrArg (fun l => l.headD "") hdec
      have hrest : rest = p1 ++ t :: p2 := by simpa using congrArg List.tail hdec
      have := topoCheck_sound_aux deps rest (seen ++ [r]) hchk.2 p1 t p2 hrest d hd
      rw [List.append_assoc] at this
      rw [← hqr]
      simpa using this

theorem topoOrder_of_check {deps : String → List String} {order : List String}
    (h : topoCheck deps [] order = true) : TopoOrder deps order := by
  intro p1 t p2 hdec d hd
  simpa using topoCheck_sound_aux deps order [] h p1 t p2 hdec d hd

/-! ## Claim C1 -/

/-- Claim C1: for the plan built by `from_tasks` from an `execution_order`
sequence (a duplicate-free topological order of the target and its
transitive dependencies), every direct dependency of a task placed at some
stage sits at a strictly earlier stage, every direct dependency of a listed
task is indeed placed below its dependent, and no two tasks of one stage
are in the direct-or-transitive dependency relation. -/
theorem executionPlan_stages (deps : String → List String) (order : List String)
    (htopo : TopoOrder deps order) (hnd : order.Nodup) :
    (∀ t i, memStage (fromTasks deps order) i t → ∀ d ∈ deps t,
      ∀ j, memStage (fromTasks deps order) j d → j < i) ∧
    (∀ t ∈ order, ∀ d ∈ deps t, ∃ i j, memStage (fromTasks deps order) j d ∧
      memStage (fromTasks deps order) i t ∧ j < i) ∧
    (∀ i a b, memStage (fromTasks deps order) i a → memStage (fromTasks deps order) i b →
      Relation.TransGen (DepRel deps) a b → False) := by
  obtain ⟨hperm, hinv⟩ := fromTasks_inv deps order htopo hnd
  refine ⟨fun t i ht d hd j hj => hinv t i ht d hd j hj, ?_, ?_⟩
  · intro t ht d hd
    obtain ⟨p1, p2, hp12⟩ := List.append_of_mem ht
    have hdo : d ∈ order := by
      rw [hp12]
      exact List.mem_append.mpr (Or.inl (htopo p1 t p2 hp12 d hd))
    obtain ⟨i, hi⟩ := mem_getD_of_mem_flatten (hperm.mem_iff.mpr ht)
    obtain ⟨j, hj⟩ := mem_getD_of_mem_flatten (hperm.mem_iff.mpr hdo)
    exact ⟨i, j, hj, hi, hinv t i hi d hd j hj⟩
  · intro i a b ha hb htg
    exact lt_irrefl i (stage_lt_of_transGen deps order htopo hnd htg i i ha hb)

/-- Witness for C1 on the diamond a, b, c, d. -/
theorem executionPlan_stages_witness :
    (∀ t i, memStage (fromTasks diamondDeps diamondOrder) i t → ∀ d ∈ diamondDeps t,
      ∀ j, memStage (fromTasks diamondDeps diamondOrder) j d → j < i) ∧
    (∀ t ∈ diamondOrder, ∀ d ∈ diamondDeps t,
      ∃ i j, memStage (fromTasks diamondDeps diamondOrder) j d ∧
        memStage (fromTasks diamondDeps diamondOrder) i t ∧ j < i) ∧
    (∀ i a b, memStage (fromTasks diamondDeps diamondOrder) i a →
      memStage (fromTasks diamondDeps diamondOrder) i b →
      Relation.TransGen (DepRel diamondDeps) a b → False) :=
  executionPlan_stages diamondDeps diamondOrder (topoOrder_of_check (by decide)) (by decide)

/-! ## Executor stage-loop lemmas -/

theorem awaitGroup_ok (allowF : String → Bool) :
    ∀ (rs acc : List TRes), (∀ r ∈ rs, r.success = true ∨ allowF r.name = true) →
      awaitGroup allowF rs acc = Except.ok (acc ++ rs)
  | [], acc, _ => by simp [awaitGroup]
  | r :: rest, acc, h => by
    rw [awaitGroup, if_neg]
    · rw [awaitGroup_ok allowF rest (acc ++ [r])
        (fun q hq => h q (List.mem_cons_of_mem r hq))]
      simp
    · rcases h r (List.mem_cons_self r rest) with hs | ha
      · intro hc; rw [hc.1] at hs; cases hs
      · intro hc; rw [hc.2] at ha; cases ha

theorem awaitGroup_error (allowF : String → Bool) :
    ∀ (pre : List TRes) (r : TRes) (post acc : List TRes),
      (∀ q ∈ pre, q.success = true ∨ allowF q.name = true) →
      r.success = false → allowF r.name = false →
      awaitGroup allowF (pre ++ r :: post) acc =
        Except.error (ExecErr.taskFailed r.name 1)
  | [], r, post, acc, _, hs, ha => by
    rw [List.nil_append, awaitGroup, if_pos ⟨hs, ha⟩]
  | q :: pre, r, post, acc, h, hs, ha => by
    rw [List.cons_append, awaitGroup, if_neg]
    · exact awaitGroup_error allowF pre r post (acc ++ [q])
        (fun p hp => h p (List.mem_cons_of_mem q hp)) hs ha
    · rcases h q (List.mem_cons_self q pre) with h1 | h1
      · intro hc; rw [hc.1] at h1; cases h1
      · intro hc; rw [hc.2] at h1; cases h1

theorem executeGroups_ok (run allowF : String → Bool) :
    ∀ (gs : List (List String)) (acc : List TRes),
      (∀ n ∈ gs.flatten, run n = true ∨ allowF n = true) →
      executeGroups run allowF gs acc =
        Except.ok (acc ++ gs.flatten.map (fun n => ⟨n, run n⟩))
  | [], acc, _ => by simp [executeGroups]
  | g :: gs, acc, h => by
    have hsafe2 : ∀ n ∈ gs.flatten, run n = true ∨ allowF n = true := fun n hn =>
      h n (by rw [List.flatten_cons]; exact List.mem_append.mpr (Or.inr hn))
    have hsafeg : ∀ r ∈ g.map (fun n => (⟨n, run n⟩ : TRes)),
        r.success = true ∨ allowF r.name = true := by
      intro r hr
      obtain ⟨n, hn, hrn⟩ := List.mem_map.mp hr
      rcases h n (by rw [List.flatten_cons]; exact List.mem_append.mpr (Or.inl hn)) with h1 | h1
      · exact Or.inl (by rw [← hrn]; exact h1)
      · exact Or.inr (by rw [← hrn]; exact h1)
    rw [executeGroups, awaitGroup_ok allowF _ acc hsafeg]
    show executeGroups run allowF gs _ = _
    rw [executeGroups_ok run allowF gs _ hsafe2, List.flatten_cons, List.map_append,
      List.append_assoc]

theorem executeGroups_error (run allowF : String → Bool) (a : String)
    (hra : run a = false) (haa : allowF a = false) :
    ∀ (gs1 : List (List String)) (gp gq : List String) (gs2 : List (List String))
      (acc : List TRes),
      (∀ n ∈ gs1.flatten, run n = true ∨ allowF n = true) →
      (∀ n ∈ gp, run n = true ∨ allowF n = true) →
      executeGroups run allowF (gs1 ++ (gp ++ a :: gq) :: gs2) acc =
        Except.error (ExecErr.taskFailed a 1)
  | [], gp, gq, gs2, acc, _, hgp => by
    rw [List.nil_append, executeGroups]
    have hmap : (gp ++ a :: gq).map (fun n => (⟨n, run n⟩ : TRes)) =
        gp.map (fun n => ⟨n, run n⟩) ++ (⟨a, run a⟩ : TRes) :: gq.map (fun n => ⟨n, run n⟩) := by
      rw [List.map_append, List.map_cons]
    have hsafep : ∀ q ∈ gp.map (fun n => (⟨n, run n⟩ : TRes)),
        q.success = true ∨ allowF q.name = true := by
      intro q hq
      obtain ⟨n, hn, hqn⟩ := List.mem_map.mp hq
      rcases hgp n hn with h1 | h1
      · exact Or.inl (by rw [← hqn]; exact h1)
      · exact Or.inr (by rw [← hqn]; exact h1)
    rw [hmap, awaitGroup_error allowF _ _ _ acc hsafep (by rw [hra]) (by simpa using haa)]
  | g :: gs1, gp, gq, gs2, acc, hsafe, hgp => by
    have hsafeg : ∀ r ∈ g.map (fun n => (⟨n, run n⟩ : TRes)),
        r.success = true ∨ allowF r.name = true := by
      intro r hr
      obtain ⟨n, hn, hrn⟩ := List.mem_map.mp hr
      rcases hsafe n (by rw [List.flatten_cons]; exact List.mem_append.mpr (Or.inl hn)) with h1 | h1
      · exact Or.inl (by rw [← hrn]; exact h1)
      · exact Or.inr (by rw [← hrn]; exact h1)
    rw [List.cons_append, executeGroups, awaitGroup_ok allowF _ acc hsafeg]
    show executeGroups run allowF (gs1 ++ (gp ++ a :: gq) :: gs2) _ = _
    exact executeGroups_error run allowF a hra haa gs1 gp gq gs2 _
      (fun n hn => hsafe n (by rw [List.flatten_cons]; exact List.mem_append.mpr (Or.inr hn)))
      hgp

theorem executedTasks_all_safe (run allowF : String → Bool) :
    ∀ (gs : List (List String)),
      (∀ n ∈ gs.flatten, run n = true ∨ allowF n = true) →
      executedTasks run allowF gs = gs.flatten
  | [], _ => rfl
  | g :: gs, h => by
    rw [executedTasks, if_neg, executedTasks_all_safe run allowF gs, List.flatten_cons]
    · intro n hn
      exact h n (by rw [List.flatten_cons]; exact List.mem_append.mpr (Or.inr hn))
    · intro hany
      obtain ⟨n, hn, hfat⟩ := List.any_eq_true.mp hany
      have := h n (by rw [List.flatten_cons]; exact List.mem_append.mpr (Or.inl hn))
      rcases this with h1 | h1
      · rw [(by simpa using hfat : run n = false ∧ allowF n = false).1] at h1; cases h1
      · rw [(by simpa using hfat : run n = false ∧ allowF n = false).2] at h1; cases h1

theorem executedTasks_fatal (run allowF : String → Bool) (a : String)
    (hra : run a = false) (haa : allowF a = false) :
    ∀ (gs1 : List (List String)) (g : List String) (gs2 : List (List String)),
      a ∈ g → (∀ n ∈ gs1.flatten, run n = true ∨ allowF n = true) →
      executedTasks run allowF (gs1 ++ g :: gs2) = gs1.flatten ++ g
  | [], g, gs2, hag, _ => by
    rw [List.nil_append, executedTasks, if_pos, List.flatten_nil, List.nil_append]
    exact List.any_eq_true.mpr ⟨a, hag, by simp [hra, haa]⟩
  | g1 :: gs1, g, gs2, hag, hsafe => by
    rw [List.cons_append, executedTasks, if_neg,
      executedTasks_fatal run allowF a hra haa gs1 g gs2 hag
        (fun n hn => hsafe n (by rw [List.flatten_cons]; exact List.mem_append.mpr (Or.inr hn))),
      List.flatten_cons, List.append_assoc]
    intro hany
    obtain ⟨n, hn, hfat⟩ := List.any_eq_true.mp hany
    have := hsafe n (by rw [List.flatten_cons]; exact List.mem_append.mpr (Or.inl hn))
    rcases this with h1 | h1
    · rw [(by simpa using hfat : run n = false ∧ allowF n = false).1] at h1; cases h1
    · rw [(by simpa using hfat : run n = false ∧ allowF n = false).2] at h1; cases h1

/-! ## Stage membership utilities -/

theorem lt_length_of_mem_getD {G : List (List String)} {i : Nat} {t : String}
    (h : t ∈ G.getD i []) : i < G.length := by
  by_contra hn
  rw [List.getD_eq_default _ _ (by omega)] at h
  cases h

theorem stage_unique {G : List (List String)} (hnd : G.flatten.Nodup)
    {i j : Nat} {t : String} (hi : t ∈ G.getD i []) (hj : t ∈ G.getD j []) : i = j := by
  by_contra hne
  have hil := lt_length_of_mem_getD hi
  have hjl := lt_length_of_mem_getD hj
  have hpw := (List.nodup_flatten.mp hnd).2
  rw [List.pairwise_iff_get] at hpw
  rw [List.getD_eq_getElem _ _ hil] at hi
  rw [List.getD_eq_getElem _ _ hjl] at hj
  rcases Nat.lt_or_ge i j with hlt | hge
  · exact hpw ⟨i, hil⟩ ⟨j, hjl⟩ hlt hi hj
  · have hlt : j < i := by omega
    exact hpw ⟨j, hjl⟩ ⟨i, hil⟩ hlt hj hi

theorem mem_flatten_take {G : List (List String)} :
    ∀ {i : Nat} {t : String}, t ∈ (G.take i).flatten → ∃ j, j < i ∧ t ∈ G.getD j [] := by
  induction G with
  | nil => intro i t h; simp at h
  | cons g gs ih =>
    intro i t h
    match i with
    | 0 => simp at h
    | i + 1 =>
      rw [List.take_succ_cons, List.flatten_cons, List.mem_append] at h
      rcases h with h | h
      · exact ⟨0, by omega, by simpa using h⟩
      · obtain ⟨j, hj, hmem⟩ := ih h
        exact ⟨j + 1, by omega, by simpa using hmem⟩

/-! ## Claim C2 -/

/-- Claim C2: on an execution order containing A and B with B directly
depending on A, where A fails and every other task succeeds: with
`allow_failure` false for A, execute returns `TaskFailed(A, 1)` and B is
never spawned; with `allow_failure` true for A, execute returns the full
result sequence, containing the failed result of A and the successful
result of B, and B does execute. -/
theorem executor_failure_policy (run allowF : String → Bool)
    (deps : String → List String) (order : List String)
    (htopo : TopoOrder deps order) (hnd : order.Nodup)
    (A B : String) (hB : B ∈ order) (hdep : A ∈ deps B)
    (hrunA : run A = false) (hothers : ∀ n, n ≠ A → run n = true) :
    (allowF A = false →
      execute run allowF deps order = Except.error (ExecErr.taskFailed A 1) ∧
      B ∉ executedTasks run allowF (fromTasks deps order)) ∧
    (allowF A = true →
      (∃ rs, execute run allowF deps order = Except.ok rs ∧
        (⟨A, false⟩ : TRes) ∈ rs ∧ (⟨B, true⟩ : TRes) ∈ rs) ∧
      B ∈ executedTasks run allowF (fromTasks deps order)) := by
  obtain ⟨p1, p2, hp12⟩ := List.append_of_mem hB
  have hA : A ∈ order := by
    rw [hp12]
    exact List.mem_append.mpr (Or.inl (htopo p1 B p2 hp12 A hdep))
  have hAB : A ≠ B := by
    intro he
    have hmem : A ∈ p1 := htopo p1 B p2 hp12 A hdep
    have hnd2 := hnd
    rw [hp12, List.nodup_append] at hnd2
    exact hnd2.2.2 hmem (he ▸ List.mem_cons_self B p2)
  obtain ⟨hperm, hinv⟩ := fromTasks_inv deps order htopo hnd
  have hfnd : (fromTasks deps order).flatten.Nodup := hperm.nodup_iff.mpr hnd
  obtain ⟨iA, hiA⟩ := mem_getD_of_mem_flatten (hperm.mem_iff.mpr hA)
  obtain ⟨iB, hiB⟩ := mem_getD_of_mem_flatten (hperm.mem_iff.mpr hB)
  have hstage : iA < iB := hinv B iB hiB A hdep iA hiA
  have hiAl := lt_length_of_mem_getD hiA
  have hdecomp : fromTasks deps order =
      (fromTasks deps order).take iA ++
        (fromTasks deps order).getD iA [] :: (fromTasks deps order).drop (iA + 1) := by
    conv_lhs => rw [← List.take_append_drop iA (fromTasks deps order)]
    rw [List.drop_eq_getElem_cons hiAl, List.getD_eq_getElem _ _ hiAl]
  have hsafe1 : ∀ n ∈ ((fromTasks deps order).take iA).flatten,
      run n = true ∨ allowF n = true := by
    intro n hn
    obtain ⟨j, hj, hmem⟩ := mem_flatten_take hn
    by_cases hna : n = A
    · rw [hna] at hmem
      have := stage_unique hfnd hmem hiA
      omega
    · exact Or.inl (hothers n hna)
  constructor
  · intro hAF
    constructor
    · show executeGroups run allowF (fromTasks deps order) [] = _
      have hgnd : ((fromTasks deps order).getD iA []).Nodup := by
        rw [List.getD_eq_getElem _ _ hiAl]
        exact (List.nodup_flatten.mp hfnd).1 _ (List.getElem_mem hiAl)
      obtain ⟨gp, gq, hgpq⟩ := List.append_of_mem hiA
      have hgpsafe : ∀ n ∈ gp, run n = true ∨ allowF n = true := by
        intro n hn
        by_cases hna : n = A
        · exfalso
          rw [hgpq, List.nodup_append] at hgnd
          exact hgnd.2.2 (hna ▸ hn) (List.mem_cons_self A gq)
        · exact Or.inl (hothers n hna)
      conv_lhs => rw [hdecomp, hgpq]
      exact executeGroups_error run allowF A hrunA hAF
        ((fromTasks deps order).take iA) gp gq ((fromTasks deps order).drop (iA + 1)) []
        hsafe1 hgpsafe
    · have hex : executedTasks run allowF (fromTasks deps order) =
          ((fromTasks deps order).take iA).flatten ++ (fromTasks deps order).getD iA [] := by
        conv_lhs => rw [hdecomp]
        exact executedTasks_fatal run allowF A hrunA hAF
          ((fromTasks deps order).take iA) ((fromTasks deps order).getD iA [])
          ((fromTasks deps order).drop (iA + 1)) hiA hsafe1
      rw [hex]
      intro hBmem
      rcases List.mem_append.mp hBmem with h | h
      · obtain ⟨j, hj, hmem⟩ := mem_flatten_take h
        have := stage_unique hfnd hmem hiB
        omega
      · have := stage_unique hfnd h hiB
        omega
  · intro hAT
    have hallsafe : ∀ n ∈ (fromTasks deps order).flatten,
        run n = true ∨ allowF n = true := by
      intro n _
      by_cases hna : n = A
      · exact Or.inr (hna ▸ hAT)
      · exact Or.inl (hothers n hna)
    refine ⟨⟨(fromTasks deps order).flatten.map (fun n => ⟨n, run n⟩), ?_, ?_, ?_⟩, ?_⟩
    · show executeGroups run allowF (fromTasks deps order) [] = _
      rw [executeGroups_ok run allowF (fromTasks deps order) [] hallsafe, List.nil_append]
    · exact List.mem_map.mpr ⟨A, hperm.mem_iff.mpr hA, by rw [hrunA]⟩
    · exact List.mem_map.mpr ⟨B, hperm.mem_iff.mpr hB, by rw [hothers B (Ne.symm hAB)]⟩
    · rw [executedTasks_all_safe run allowF (fromTasks deps order) hallsafe]
      exact hperm.mem_iff.mpr hB

/-- Witness for C2 on the chain a before b with a failing and not allowed
to fail. -/
theorem executor_failure_policy_witness :
    ((fun _ => false : String → Bool) "a" = false →
      execute runFailA (fun _ => false) chainDeps ["a", "b"] =
        Except.error (ExecErr.taskFailed "a" 1) ∧
      "b" ∉ executedTasks runFailA (fun _ => false) (fromTasks chainDeps ["a", "b"])) ∧
    ((fun _ => false : String → Bool) "a" = true →
      (∃ rs, execute runFailA (fun _ => false) chainDeps ["a", "b"] = Except.ok rs ∧
        (⟨"a", false⟩ : TRes) ∈ rs ∧ (⟨"b", true⟩ : TRes) ∈ rs) ∧
      "b" ∈ executedTasks runFailA (fun _ => false) (fromTasks chainDeps ["a", "b"])) :=
  executor_failure_policy runFailA (fun _ => false) chainDeps ["a", "b"]
    (topoOrder_of_check (by decide)) (by decide) "a" "b" (by decide) (by decide)
    (by decide) (fun n hn => by simp [runFailA, hn])

/-! ## Command execution lemmas -/

theorem string_foldl_append : ∀ (l : List String) (a : String),
    l.foldl (fun r s => r ++ s) a = a ++ l.foldl (fun r s => r ++ s) ""
  | [], a => by simp [String.append_empty]
  | s :: l, a => by
    rw [List.foldl_cons, List.foldl_cons, string_foldl_append l (a ++ s),
      string_foldl_append l ("" ++ s), ← String.append_assoc]
    simp

theorem string_join_cons (s : String) (l : List String) :
    String.join (s :: l) = s ++ String.join l := by
  rw [String.join, String.join, List.foldl_cons, string_foldl_append]
  simp

theorem execParAux_ok : ∀ (outs : List String) (acc : String),
    execParAux (outs.map Except.ok) acc =
      Except.ok (acc ++ String.join (outs.map (fun o => o ++ "\n")))
  | [], acc => by simp [execParAux, String.join, String.append_empty]
  | o :: outs, acc => by
    rw [List.map_cons, execParAux, execParAux_ok outs (acc ++ o ++ "\n"),
      List.map_cons, string_join_cons, String.append_assoc acc o "\n",
      String.append_assoc]

theorem execParAux_map_err (runCmd : String → Except String String)
    (bad : String) (rest : List String) (e : String)
    (hbad : runCmd bad = Except.error e) :
    ∀ (pre : List String) (acc : String),
      (∀ c ∈ pre, ∃ o, runCmd c = Except.ok o) →
      execParAux ((pre ++ bad :: rest).map runCmd) acc = Except.error e
  | [], acc, _ => by rw [List.nil_append, List.map_cons, hbad]; rfl
  | c :: pre, acc, h => by
    obtain ⟨o, ho⟩ := h c (List.mem_cons_self c pre)
    rw [List.cons_append, List.map_cons, ho, execParAux]
    exact execParAux_map_err runCmd bad rest e hbad pre _
      (fun q hq => h q (List.mem_cons_of_mem c hq))

theorem execSeqAux_ok (runCmd : String → Except String String) (outs : String → String) :
    ∀ (cmds : List String) (acc : String),
      (∀ c ∈ cmds, runCmd c = Except.ok (outs c)) →
      execSeqAux runCmd cmds acc =
        Except.ok (acc ++ String.join (cmds.map (fun c => outs c ++ "\n")))
  | [], acc, _ => by simp [execSeqAux, String.join, String.append_empty]
  | c :: cmds, acc, h => by
    rw [execSeqAux, h c (List.mem_cons_self c cmds)]
    show execSeqAux runCmd cmds (acc ++ outs c ++ "\n") = _
    rw [execSeqAux_ok runCmd outs cmds _ (fun q hq => h q (List.mem_cons_of_mem c hq)),
      List.map_cons, string_join_cons, String.append_assoc acc (outs c) "\n",
      String.append_assoc]

theorem execSeqAux_err (runCmd : String → Except String String)
    (bad : String) (rest : List String) (e : String)
    (hbad : runCmd bad = Except.error e) :
    ∀ (pre : List String) (acc : String),
      (∀ c ∈ pre, ∃ o, runCmd c = Except.ok o) →
      execSeqAux runCmd (pre ++ bad :: rest) acc = Except.error e
  | [], acc, _ => by rw [List.nil_append, execSeqAux, hbad]
  | c :: pre, acc, h => by
    obtain ⟨o, ho⟩ := h c (List.mem_cons_self c pre)
    rw [List.cons_append, execSeqAux, ho]
    show execSeqAux runCmd (pre ++ bad :: rest) (acc ++ o ++ "\n") = _
    exact execSeqAux_err runCmd bad rest e hbad pre _
      (fun q hq => h q (List.mem_cons_of_mem c hq))

/-! ## Claim C6 -/

/-- Claim C6 is right about the spec but the code does not implement it:
`execute_single_task` never reads `timeout_seconds`.  The outcome of a task
is identical for every value of the timeout field, over any oracles, so no
execution bound is enforced and an over-long task is not failed. -/
theorem timeout_field_ignored (H : String → String)
    (hashSrc : List String → Except String String)
    (runCmd : String → Except String String)
    (runScript : String → List (String × String) → Except String String)
    (globalEnv : List (String × String)) (force : Bool) (cache : Option CacheState)
    (name : String) (config : TaskConfig) (now : Nat) (t : Option Nat) :
    executeSingleTask H hashSrc runCmd runScript globalEnv force cache name
        { config with timeout := t } now =
      executeSingleTask H hashSrc runCmd runScript globalEnv force cache name
        config now := rfl

/-! ## Claim C7 -/

/-- Claim C7 as stated is false: with two commands whose completion times
are reversed (the second finishes first), the source output is the
declaration-order concatenation A then B, not the completion-order
concatenation B then A required by the spec (under either reading of the
newline separator). -/
theorem parallel_completion_order_counterexample :
    execCommandsParallel parRun ["c1", "c2"] = Except.ok "A\nB\n" ∧
    specCompletionOrderOutput ["A", "B"] [2, 1] = "B\nA" ∧
    ("A\nB\n" : String) ≠ "B\nA" ∧ ("A\nB\n" : String) ≠ "B\nA\n" := by
  refine ⟨rfl, rfl, by decide, by decide⟩

/-- Claim C7, amended: every command of a parallel task is spawned before
any is awaited, and the task output concatenates the stdouts in declaration
order (not completion order), each stdout followed by a newline; the first
failure in declaration order is the reported error, whatever the commands
after it do. -/
theorem parallel_commands_declaration_order
    (runCmd : String → Except String String) (cmds : List String) :
    (∀ outs : String → String, (∀ c ∈ cmds, runCmd c = Except.ok (outs c)) →
      execCommandsParallel runCmd cmds =
        Except.ok (String.join (cmds.map (fun c => outs c ++ "\n")))) ∧
    (∀ pre bad rest e, cmds = pre ++ bad :: rest →
      (∀ c ∈ pre, ∃ o, runCmd c = Except.ok o) →
      runCmd bad = Except.error e →
      execCommandsParallel runCmd cmds = Except.error e) := by
  constructor
  · intro outs h
    unfold execCommandsParallel
    have hmap : cmds.map runCmd = (cmds.map outs).map Except.ok := by
      rw [List.map_map]
      exact List.map_congr_left (fun c hc => h c hc)
    have hmap2 : cmds.map (fun c => outs c ++ "\n") =
        (cmds.map outs).map (fun o => o ++ "\n") := by rw [List.map_map]; rfl
    rw [hmap, execParAux_ok, hmap2]
    simp
  · intro pre bad rest e hc hpre hbad
    unfold execCommandsParallel
    rw [hc]
    exact execParAux_map_err runCmd bad rest e hbad pre "" hpre

/-- Witness for C7 on two successful commands. -/
theorem parallel_commands_declaration_order_witness :
    execCommandsParallel parRun ["c1", "c2"] =
      Except.ok (String.join (["c1", "c2"].map
        (fun c => (if c = "c1" then "A" else "B") ++ "\n"))) :=
  (parallel_commands_declaration_order parRun ["c1", "c2"]).1
    (fun c => if c = "c1" then "A" else "B")
      (by intro c hc; simp only [List.mem_cons, List.not_mem_nil, or_false] at hc
          rcases hc with rfl | rfl <;> rfl)

/-! ## Claim C8 -/

/-- Claim C8 as stated is false in one detail: the source appends a newline
after every stdout, including the last, so the output is newline-terminated
rather than newline-separated. -/
theorem sequential_separator_counterexample :
    execCommandsSequential parRun ["c1", "c2"] = Except.ok "A\nB\n" ∧
    ("A\nB\n" : String) ≠ String.intercalate "\n" ["A", "B"] := by
  refine ⟨rfl, by decide⟩

/-- Claim C8, amended: without script and parallel_commands, the commands
run sequentially in declared order and the output concatenates the stdouts
in that order, each followed by a newline; the first command that fails
aborts the remaining commands (the result does not depend on them) and the
task fails, its outcome carrying the error. -/
theorem sequential_commands_abort
    (runCmd : String → Except String String) (cmds : List String) :
    (∀ outs : String → String, (∀ c ∈ cmds, runCmd c = Except.ok (outs c)) →
      execCommandsSequential runCmd cmds =
        Except.ok (String.join (cmds.map (fun c => outs c ++ "\n")))) ∧
    (∀ pre bad rest e, cmds = pre ++ bad :: rest →
      (∀ c ∈ pre, ∃ o, runCmd c = Except.ok o) →
      runCmd bad = Except.error e →
      execCommandsSequential runCmd cmds = Except.error e ∧
      (∀ (H : String → String) (hashSrc : List String → Except String String)
        (runScript : String → List (String × String) → Except String String)
        (globalEnv : List (String × String)) (force : Bool) (name : String)
        (now : Nat) (config : TaskConfig),
        config.script = none → config.parallel = false → config.run = cmds →
        executeSingleTask H hashSrc runCmd runScript globalEnv force none name
          config now = Except.ok (⟨name, false, false, none, some e⟩, none))) := by
  constructor
  · intro outs h
    unfold execCommandsSequential
    rw [execSeqAux_ok runCmd outs cmds "" h]
    simp
  · intro pre bad rest e hc hpre hbad
    have herr : execCommandsSequential runCmd cmds = Except.error e := by
      unfold execCommandsSequential
      rw [hc]
      exact execSeqAux_err runCmd bad rest e hbad pre "" hpre
    refine ⟨herr, ?_⟩
    intro H hashSrc runScript globalEnv force name now config hs hp hr
    have herr2 : execCommandsSequential runCmd config.run = Except.error e := by
      rw [hr]; exact herr
    unfold executeSingleTask
    cases force <;> simp [hs, hp, herr2]

/-- Witness for C8: a successful pair and the abort of the tail after a
failing head. -/
theorem sequential_commands_abort_witness :
    (execCommandsSequential parRun ["c1", "c2"] =
      Except.ok (String.join (["c1", "c2"].map
        (fun c => (if c = "c1" then "A" else "B") ++ "\n")))) ∧
    execCommandsSequential (fun _ => Except.error "boom") ["c1", "c2"] =
      Except.error "boom" :=
  ⟨(sequential_commands_abort parRun ["c1", "c2"]).1
      (fun c => if c = "c1" then "A" else "B")
      (by intro c hc; simp only [List.mem_cons, List.not_mem_nil, or_false] at hc
          rcases hc with rfl | rfl <;> rfl),
    ((sequential_commands_abort (fun _ => Except.error "boom") ["c1", "c2"]).2
      [] "c1" ["c2"] "boom" rfl (by simp) rfl).1⟩

/-! ## Graph construction lemmas -/

theorem nodup_subset_length {l1 l2 : List String} (h1 : l1.Nodup) (h2 : l1 ⊆ l2) :
    l1.length ≤ l2.length := by
  have h3 := List.toFinset_card_of_nodup h1
  have h4 : l1.toFinset ⊆ l2.toFinset := by
    intro a ha
    rw [List.mem_toFinset] at *
    exact h2 ha
  have h5 := Finset.card_le_card h4
  have h6 := l2.toFinset_card_le
  omega

theorem findMissing_eq_none (names : List String) :
    ∀ tasks : TaskMap, findMissing names tasks = none ↔
      ∀ p ∈ tasks, ∀ d ∈ p.2.depends, names.contains d = true
  | [] => by simp [findMissing]
  | (n, tc) :: rest => by
    rw [findMissing]
    cases hf : tc.depends.find? (fun d => (names.contains d) = false) with
    | some d =>
      simp only [reduceCtorEq, false_iff, not_forall]
      have hd := List.mem_of_find?_eq_some hf
      have hc := List.find?_some hf
      refine ⟨(n, tc), List.mem_cons_self _ _, d, hd, ?_⟩
      simp only [decide_eq_true_eq] at hc
      rw [hc]
      simp
    | none =>
      rw [findMissing_eq_none names rest]
      constructor
      · intro h p hp d hd
        rcases List.mem_cons.mp hp with rfl | hp2
        · have := List.find?_eq_none.mp hf d hd
          simpa using this
        · exact h p hp2 d hd
      · intro h p hp d hd
        exact h p (List.mem_cons_of_mem _ hp) d hd

theorem findMissing_some (names : List String) :
    ∀ (tasks : TaskMap) (d : String), findMissing names tasks = some d →
      names.contains d = false
  | [], d => by simp [findMissing]
  | (n, tc) :: rest, d => by
    rw [findMissing]
    cases hf : tc.depends.find? (fun x => (names.contains x) = false) with
    | some x =>
      intro h
      have hc := List.find?_some hf
      simp only [decide_eq_true_eq] at hc
      cases h
      exact hc
    | none => exact findMissing_some names rest d

/-! ## Claim C9 -/

/-- Claim C9, amended: a config in which some task lists an undefined
dependency fails with `TaskNotFound` whose `available` field is
`config.task_names()`, the full defined-name list in the map iteration
order — the source never sorts it. -/
theorem from_config_missing_dep (tasks : TaskMap)
    (h : ∃ p ∈ tasks, ∃ d ∈ p.2.depends, d ∉ taskNames tasks) :
    ∃ d, from_config tasks =
        Except.error (GraphErr.taskNotFound d (taskNames tasks)) ∧
      d ∉ taskNames tasks := by
  cases hf : findMissing (taskNames tasks) tasks with
  | none =>
    exfalso
    obtain ⟨p, hp, d, hd, hnd⟩ := h
    have := (findMissing_eq_none (taskNames tasks) tasks).mp hf p hp d hd
    exact hnd (List.mem_of_elem_eq_true this)
  | some d =>
    have hcont := findMissing_some (taskNames tasks) tasks d hf
    refine ⟨d, ?_, ?_⟩
    · rw [from_config, hf]
    · intro hmem
      have h2 : (taskNames tasks).contains d = true := List.elem_eq_true_of_mem hmem
      rw [h2] at hcont
      cases hcont

/-- Counterexample to C9 as stated: in a map whose iteration order is b
then a, the `available` field is the unsorted b, a. -/
theorem from_config_missing_dep_counterexample :
    from_config missingCfg =
      Except.error (GraphErr.taskNotFound "z" ["b", "a"]) ∧
    ["b", "a"] ≠ sortedNames missingCfg := by
  constructor
  · rfl
  · decide

/-- Witness for C9 at the concrete map. -/
theorem from_config_missing_dep_witness :
    ∃ d, from_config missingCfg =
        Except.error (GraphErr.taskNotFound d (taskNames missingCfg)) ∧
      d ∉ taskNames missingCfg :=
  from_config_missing_dep missingCfg
    ⟨("b", { depends := ["z"] }), by decide, "z", by decide, by decide⟩

/-! ## Peeling decides cyclicity -/

theorem edge_mem_names {tasks : TaskMap} {u v : String} (h : Edge tasks u v) :
    v ∈ taskNames tasks := by
  obtain ⟨p, hp, hpv⟩ := List.any_eq_true.mp h
  simp only [decide_eq_true_eq] at hpv
  rw [← hpv.1]
  exact List.mem_map.mpr ⟨p, hp, rfl⟩

theorem exists_pred_on_cycle {tasks : TaskMap} {v : String}
    (h : Relation.TransGen (Edge tasks) v v) :
    ∃ u, Edge tasks u v ∧ Relation.TransGen (Edge tasks) u u := by
  obtain ⟨u, hru, hedge⟩ := Relation.TransGen.tail'_iff.mp h
  exact ⟨u, hedge, Relation.TransGen.head' hedge hru⟩

theorem peel_spec (tasks : TaskMap) :
    ∀ (fuel : Nat) (S : List String), S.length ≤ fuel →
      peel tasks fuel S = [] ∨
      (peel tasks fuel S ≠ [] ∧
        ∀ v ∈ peel tasks fuel S, hasPred tasks (peel tasks fuel S) v = true)
  | 0, S, hle => by
    rw [peel]
    left
    exact List.eq_nil_of_length_eq_zero (by omega)
  | fuel + 1, S, hle => by
    rw [peel]
    cases hf : S.find? (fun v => (hasPred tasks S v) = false) with
    | none =>
      cases hS : S with
      | nil => exact Or.inl rfl
      | cons a S2 =>
        right
        rw [← hS]
        refine ⟨by rw [hS]; simp, ?_⟩
        intro v hv
        have := List.find?_eq_none.mp hf v hv
        simpa using this
    | some v =>
      have hvS := List.mem_of_find?_eq_some hf
      have hlen : (S.erase v).length ≤ fuel := by
        rw [List.length_erase_of_mem hvS]
        omega
      exact peel_spec tasks fuel (S.erase v) hlen

theorem cyclic_of_stuck (tasks : TaskMap) (R : List String) (hne : R ≠ [])
    (hall : ∀ v ∈ R, hasPred tasks R v = true) : Cyclic tasks := by
  classical
  have hstep : ∀ v : { x // x ∈ R }, ∃ u : { x // x ∈ R }, Edge tasks u.1 v.1 := by
    rintro ⟨v, hv⟩
    obtain ⟨u, hu, he⟩ := List.any_eq_true.mp (hall v hv)
    exact ⟨⟨u, hu⟩, he⟩
  obtain ⟨a0, ha0⟩ := List.exists_mem_of_ne_nil R hne
  let g : Nat → { x // x ∈ R } :=
    fun n => Nat.rec ⟨a0, ha0⟩ (fun _ prev => Classical.choose (hstep prev)) n
  have hg : ∀ n, Edge tasks (g (n + 1)).1 (g n).1 :=
    fun n => Classical.choose_spec (hstep (g n))
  have hchain : ∀ d n, Relation.TransGen (Edge tasks) (g (n + d + 1)).1 (g n).1 := by
    intro d
    induction d with
    | zero => exact fun n => Relation.TransGen.single (hg n)
    | succ d ih =>
      intro n
      have h1 : Edge tasks (g (n + d + 2)).1 (g (n + d + 1)).1 := hg (n + d + 1)
      exact Relation.TransGen.head h1 (ih n)
  have hcard : (R.toFinset).card < (Finset.univ : Finset (Fin (R.length + 1))).card := by
    have := R.toFinset_card_le
    simp only [Finset.card_univ, Fintype.card_fin]
    omega
  obtain ⟨i, _, j, _, hne2, heq⟩ :=
    Finset.exists_ne_map_eq_of_card_lt_of_maps_to hcard
      (f := fun i : Fin (R.length + 1) => (g i).1)
      (fun i _ => List.mem_toFinset.mpr (g i).2)
  rcases Nat.lt_or_ge i.1 j.1 with hij | hij
  · have : Relation.TransGen (Edge tasks) (g ((i : Nat) + ((j : Nat) - (i : Nat) - 1) + 1)).1
        (g (i : Nat)).1 := hchain _ _
    rw [show (i : Nat) + ((j : Nat) - (i : Nat) - 1) + 1 = (j : Nat) by omega] at this
    rw [heq] at this
    exact ⟨(g (j : Nat)).1, this⟩
  · have hji : (j : Nat) < (i : Nat) := by
      rcases Nat.lt_or_ge (j : Nat) (i : Nat) with h | h
      · exact h
      · exact absurd (Fin.ext (by omega)) hne2
    have : Relation.TransGen (Edge tasks) (g ((j : Nat) + ((i : Nat) - (j : Nat) - 1) + 1)).1
        (g (j : Nat)).1 := hchain _ _
    rw [show (j : Nat) + ((i : Nat) - (j : Nat) - 1) + 1 = (i : Nat) by omega] at this
    rw [← heq] at this
    exact ⟨(g (i : Nat)).1, this⟩

theorem cycle_nodes_stay (tasks : TaskMap) :
    ∀ (fuel : Nat) (S : List String),
      (∀ v, Relation.TransGen (Edge tasks) v v → v ∈ S) →
      ∀ v, Relation.TransGen (Edge tasks) v v → v ∈ peel tasks fuel S
  | 0, S, hinv => by rw [peel]; exact hinv
  | fuel + 1, S, hinv => by
    rw [peel]
    cases hf : S.find? (fun v => (hasPred tasks S v) = false) with
    | none => exact hinv
    | some w =>
      refine cycle_nodes_stay tasks fuel (S.erase w) ?_
      intro v hv
      have hvS := hinv v hv
      have hvw : v ≠ w := by
        intro he
        obtain ⟨u, hedge, hcu⟩ := exists_pred_on_cycle hv
        have huS : u ∈ S := hinv u hcu
        have hw := List.find?_some hf
        simp only [decide_eq_true_eq] at hw
        have : hasPred tasks S v = true := List.any_eq_true.mpr ⟨u, huS, hedge⟩
        rw [he] at this
        rw [hw] at this
        cases this
      exact (List.mem_erase_of_ne hvw).mpr hvS

theorem isCyclicB_iff {tasks : TaskMap} : isCyclicB tasks = true ↔ Cyclic tasks := by
  unfold isCyclicB
  constructor
  · intro h
    rcases peel_spec tasks (taskNames tasks).length (taskNames tasks) (le_refl _) with
      he | ⟨hne, hall⟩
    · rw [he] at h
      simp at h
    · exact cyclic_of_stuck tasks _ hne hall
  · intro hcyc
    obtain ⟨a, ha⟩ := hcyc
    have hstart : ∀ v, Relation.TransGen (Edge tasks) v v → v ∈ taskNames tasks := by
      intro v hv
      obtain ⟨u, hru, hedge⟩ := Relation.TransGen.tail'_iff.mp hv
      exact edge_mem_names hedge
    have hmem := cycle_nodes_stay tasks (taskNames tasks).length (taskNames tasks) hstart a ha
    cases hpe : peel tasks (taskNames tasks).length (taskNames tasks) with
    | nil => rw [hpe] at hmem; cases hmem
    | cons x xs => simp

/-! ## DFS unfolding equations -/

theorem dfsNeighAux_nil (target : String) (recur) (visited path : List String) :
    dfsNeighAux target recur [] visited path = (false, visited, path) := rfl

theorem dfsNeighAux_cons_found (target : String) (recur) (n : String)
    (rest visited path : List String) (h1 : n = target ∧ 1 < path.length) :
    dfsNeighAux target recur (n :: rest) visited path =
      (true, visited, path ++ [target]) := by
  rw [dfsNeighAux, if_pos h1]

theorem dfsNeighAux_cons_visited (target : String) (recur) (n : String)
    (rest visited path : List String) (h1 : ¬(n = target ∧ 1 < path.length))
    (h2 : n ∈ visited) :
    dfsNeighAux target recur (n :: rest) visited path =
      dfsNeighAux target recur rest visited path := by
  rw [dfsNeighAux, if_neg h1, if_pos h2]

theorem dfsNeighAux_cons_new_true (target : String) (recur) (n : String)
    (rest visited path : List String) {v3 p3 : List String}
    (h1 : ¬(n = target ∧ 1 < path.length)) (h2 : n ∉ visited)
    (hr : recur n (n :: visited) (path ++ [n]) = (true, v3, p3)) :
    dfsNeighAux target recur (n :: rest) visited path = (true, v3, p3) := by
  rw [dfsNeighAux, if_neg h1, if_neg h2, hr]

theorem dfsNeighAux_cons_new_false (target : String) (recur) (n : String)
    (rest visited path : List String) {v3 p3 : List String}
    (h1 : ¬(n = target ∧ 1 < path.length)) (h2 : n ∉ visited)
    (hr : recur n (n :: visited) (path ++ [n]) = (false, v3, p3)) :
    dfsNeighAux target recur (n :: rest) visited path =
      dfsNeighAux target recur rest v3 p3.dropLast := by
  rw [dfsNeighAux, if_neg h1, if_neg h2, hr]

theorem dfsVisit_zero (tasks : TaskMap) (target current : String)
    (visited path : List String) :
    dfsVisit tasks target 0 current visited path = (false, visited, path) := rfl

theorem dfsVisit_succ (tasks : TaskMap) (target current : String) (fuel : Nat)
    (visited path : List String) :
    dfsVisit tasks target (fuel + 1) current visited path =
      dfsNeighAux target (dfsVisit tasks target fuel)
        (outNeighbors tasks current) visited path := rfl

/-! ## DFS result shape: a found path extends the seed and ends at the target -/

theorem dfsNeighAux_shape (target : String)
    (recur : String → List String → List String → Bool × List String × List String)
    (hrecT : ∀ n v p v2 p2, recur n v p = (true, v2, p2) →
      (∃ ext, ext ≠ [] ∧ p2 = p ++ ext) ∧ p2.getLast? = some target)
    (hrecF : ∀ n v p v2 p2, recur n v p = (false, v2, p2) → p2 = p) :
    ∀ (ns visited path v2 p2 : List String),
      (dfsNeighAux target recur ns visited path = (true, v2, p2) →
        (∃ ext, ext ≠ [] ∧ p2 = path ++ ext) ∧ p2.getLast? = some target) ∧
      (dfsNeighAux target recur ns visited path = (false, v2, p2) → p2 = path)
  | [], visited, path, v2, p2 => by
    rw [dfsNeighAux_nil]
    constructor
    · intro h
      simp at h
    · intro h
      simp only [Prod.mk.injEq] at h
      exact h.2.2.symm
  | n :: rest, visited, path, v2, p2 => by
    by_cases h1 : n = target ∧ 1 < path.length
    · rw [dfsNeighAux_cons_found target recur n rest visited path h1]
      constructor
      · intro h
        simp only [Prod.mk.injEq] at h
        refine ⟨⟨[target], by simp, h.2.2.symm⟩, ?_⟩
        rw [← h.2.2]
        exact List.getLast?_concat _
      · intro h
        simp at h
    · by_cases h2 : n ∈ visited
      · rw [dfsNeighAux_cons_visited target recur n rest visited path h1 h2]
        exact dfsNeighAux_shape target recur hrecT hrecF rest visited path v2 p2
      · rcases hr : recur n (n :: visited) (path ++ [n]) with ⟨found, v3, p3⟩
        cases found
        · rw [dfsNeighAux_cons_new_false target recur n rest visited path h1 h2 hr]
          have hp3 : p3 = path ++ [n] := hrecF n (n :: visited) (path ++ [n]) v3 p3 hr
          rw [hp3, List.dropLast_concat]
          exact dfsNeighAux_shape target recur hrecT hrecF rest v3 path v2 p2
        · rw [dfsNeighAux_cons_new_true target recur n rest visited path h1 h2 hr]
          constructor
          · intro h
            simp only [Prod.mk.injEq] at h
            obtain ⟨⟨ext, hne, hext⟩, hlast⟩ := hrecT n (n :: visited) (path ++ [n]) v3 p3 hr
            rw [← h.2.2]
            refine ⟨⟨[n] ++ ext, by simp, ?_⟩, hlast⟩
            rw [hext, List.append_assoc]
          · intro h
            simp at h

theorem dfsVisit_shape (tasks : TaskMap) (target : String) :
    ∀ (fuel : Nat) (current : String) (visited path v2 p2 : List String),
      (dfsVisit tasks target fuel current visited path = (true, v2, p2) →
        (∃ ext, ext ≠ [] ∧ p2 = path ++ ext) ∧ p2.getLast? = some target) ∧
      (dfsVisit tasks target fuel current visited path = (false, v2, p2) → p2 = path)
  | 0, current, visited, path, v2, p2 => by
    rw [dfsVisit_zero]
    constructor
    · intro h
      simp at h
    · intro h
      simp only [Prod.mk.injEq] at h
      exact h.2.2.symm
  | fuel + 1, current, visited, path, v2, p2 => by
    rw [dfsVisit_succ]
    exact dfsNeighAux_shape target (dfsVisit tasks target fuel)
      (fun n v p w2 q2 => (dfsVisit_shape tasks target fuel n v p w2 q2).1)
      (fun n v p w2 q2 => (dfsVisit_shape tasks target fuel n v p w2 q2).2)
      (outNeighbors tasks current) visited path v2 p2

/-! ## Neighbor and edge correspondence -/

theorem mem_outNeighbors_iff {tasks : TaskMap} {u n : String} :
    n ∈ outNeighbors tasks u ↔ Edge tasks u n := by
  constructor
  · intro h
    obtain ⟨p, hp, hpn⟩ := List.mem_filterMap.mp h
    by_cases hc : p.2.depends.contains u = true
    · rw [if_pos hc] at hpn
      injection hpn with hpn
      refine List.any_eq_true.mpr ⟨p, hp, ?_⟩
      simp only [decide_eq_true_eq]
      exact ⟨hpn, hc⟩
    · rw [if_neg hc] at hpn
      cases hpn
  · intro h
    obtain ⟨p, hp, hpc⟩ := List.any_eq_true.mp h
    simp only [decide_eq_true_eq] at hpc
    refine List.mem_filterMap.mpr ⟨p, hp, ?_⟩
    rw [if_pos hpc.2, hpc.1]

theorem outNeighbors_subset {tasks : TaskMap} {u n : String}
    (h : n ∈ outNeighbors tasks u) : n ∈ taskNames tasks :=
  edge_mem_names (mem_outNeighbors_iff.mp h)

/-! ## DFS completeness: a failed exploration closes off the target -/

/-- Postconditions of a failed neighbor scan, given the postconditions of
the recursive visit (the fuel-indexed induction hypothesis): the visited
set grows to absorb every scanned neighbor, the target is not among the
scanned neighbors of a non-root node, and every newly visited node is
fully explored with the target not among its neighbors. -/
theorem dfsNeighAux_false_post (tasks : TaskMap) (target : String) (fuel : Nat)
    (IH : ∀ (current : String) (visited path v2 p2 : List String),
      dfsVisit tasks target fuel current visited path = (false, v2, p2) →
      visited.Nodup → (∀ x ∈ visited, x ∈ taskNames tasks) →
      (taskNames tasks).length + 1 ≤ fuel + visited.length →
      1 ≤ path.length →
      (visited ⊆ v2 ∧ v2.Nodup ∧ (∀ x ∈ v2, x ∈ taskNames tasks) ∧
        (∀ n ∈ outNeighbors tasks current, n ∈ v2) ∧
        (2 ≤ path.length → target ∉ outNeighbors tasks current) ∧
        (∀ u ∈ v2, u ∉ visited →
          (∀ n ∈ outNeighbors tasks u, n ∈ v2) ∧ target ∉ outNeighbors tasks u))) :
    ∀ (ns visited path v2 p2 : List String),
      dfsNeighAux target (dfsVisit tasks target fuel) ns visited path = (false, v2, p2) →
      (∀ n ∈ ns, n ∈ taskNames tasks) →
      visited.Nodup → (∀ x ∈ visited, x ∈ taskNames tasks) →
      (taskNames tasks).length + 1 ≤ fuel + 1 + visited.length →
      1 ≤ path.length →
      (visited ⊆ v2 ∧ v2.Nodup ∧ (∀ x ∈ v2, x ∈ taskNames tasks) ∧
        (∀ n ∈ ns, n ∈ v2) ∧
        (2 ≤ path.length → target ∉ ns) ∧
        (∀ u ∈ v2, u ∉ visited →
          (∀ n ∈ outNeighbors tasks u, n ∈ v2) ∧ target ∉ outNeighbors tasks u))
  | [], visited, path, v2, p2 => by
    intro h hns hvn hvm hfuel hp
    rw [dfsNeighAux_nil] at h
    simp only [Prod.mk.injEq] at h
    obtain ⟨-, hv, -⟩ := h
    subst hv
    refine ⟨fun x hx => hx, hvn, hvm, by simp, by simp, ?_⟩
    intro u hu hun
    exact absurd hu hun
  | n :: rest, visited, path, v2, p2 => by
    intro h hns hvn hvm hfuel hp
    have hnn : n ∈ taskNames tasks := hns n (List.mem_cons_self n rest)
    have hrest : ∀ m ∈ rest, m ∈ taskNames tasks :=
      fun m hm => hns m (List.mem_cons_of_mem n hm)
    by_cases h1 : n = target ∧ 1 < path.length
    · rw [dfsNeighAux_cons_found target _ n rest visited path h1] at h
      simp at h
    · by_cases h2 : n ∈ visited
      · rw [dfsNeighAux_cons_visited target _ n rest visited path h1 h2] at h
        obtain ⟨ha, hb, hc, hd, he, hf⟩ :=
          dfsNeighAux_false_post tasks target fuel IH rest visited path v2 p2 h
            hrest hvn hvm hfuel hp
        refine ⟨ha, hb, hc, ?_, ?_, hf⟩
        · intro m hm
          rcases List.mem_cons.mp hm with rfl | hm2
          · exact ha h2
          · exact hd m hm2
        · intro hlen hmem
          rcases List.mem_cons.mp hmem with heq | hm2
          · exact h1 ⟨heq.symm, by omega⟩
          · exact he hlen hm2
      · rcases hr : dfsVisit tasks target fuel n (n :: visited) (path ++ [n]) with
          ⟨found, v3, p3⟩
        cases found
        · rw [dfsNeighAux_cons_new_false target _ n rest visited path h1 h2 hr] at h
          have hp3 : p3 = path ++ [n] :=
            (dfsVisit_shape tasks target fuel n (n :: visited) (path ++ [n]) v3 p3).2 hr
          rw [hp3, List.dropLast_concat] at h
          have hnvn : (n :: visited).Nodup := List.nodup_cons.mpr ⟨h2, hvn⟩
          have hnvm : ∀ x ∈ n :: visited, x ∈ taskNames tasks := by
            intro x hx
            rcases List.mem_cons.mp hx with rfl | hx2
            · exact hnn
            · exact hvm x hx2
          have hfuel2 : (taskNames tasks).length + 1 ≤ fuel + (n :: visited).length := by
            simp only [List.length_cons]
            omega
          obtain ⟨ka, kb, kc, kd, ke, kf⟩ :=
            IH n (n :: visited) (path ++ [n]) v3 p3 hr hnvn hnvm hfuel2 (by simp)
          have hkeT : target ∉ outNeighbors tasks n := by
            refine ke ?_
            simp only [List.length_append, List.length_cons, List.length_nil]
            omega
          have hlen3 : visited.length + 1 ≤ v3.length := by
            have := nodup_subset_length hnvn ka
            simpa using this
          obtain ⟨la, lb, lc, ld, le, lf⟩ :=
            dfsNeighAux_false_post tasks target fuel IH rest v3 path v2 p2 h
              hrest kb kc (by omega) hp
          have hvsub : visited ⊆ v2 := fun x hx => la (ka (List.mem_cons_of_mem n hx))
          refine ⟨hvsub, lb, lc, ?_, ?_, ?_⟩
          · intro m hm
            rcases List.mem_cons.mp hm with heq | hm2
            · rw [heq]
              exact la (ka (List.mem_cons_self n visited))
            · exact ld m hm2
          · intro hlen hmem
            rcases List.mem_cons.mp hmem with heq | hm2
            · exact h1 ⟨heq.symm, by omega⟩
            · exact le hlen hm2
          · intro u hu hun
            by_cases hu3 : u ∈ v3
            · by_cases hu4 : u ∈ n :: visited
              · have hun2 : u = n := by
                  rcases List.mem_cons.mp hu4 with h5 | h5
                  · exact h5
                  · exact absurd h5 hun
                subst hun2
                exact ⟨fun m hm => la (kd m hm), hkeT⟩
              · obtain ⟨m1, m2⟩ := kf u hu3 hu4
                exact ⟨fun m hm => la (m1 m hm), m2⟩
            · exact lf u hu hu3
        · rw [dfsNeighAux_cons_new_true target _ n rest visited path h1 h2 hr] at h
          simp at h

/-- Postconditions of a failed `dfs_find_cycle` call with sufficient fuel. -/
theorem dfsVisit_false_post (tasks : TaskMap) (target : String) :
    ∀ (fuel : Nat) (current : String) (visited path v2 p2 : List String),
      dfsVisit tasks target fuel current visited path = (false, v2, p2) →
      visited.Nodup → (∀ x ∈ visited, x ∈ taskNames tasks) →
      (taskNames tasks).length + 1 ≤ fuel + visited.length →
      1 ≤ path.length →
      (visited ⊆ v2 ∧ v2.Nodup ∧ (∀ x ∈ v2, x ∈ taskNames tasks) ∧
        (∀ n ∈ outNeighbors tasks current, n ∈ v2) ∧
        (2 ≤ path.length → target ∉ outNeighbors tasks current) ∧
        (∀ u ∈ v2, u ∉ visited →
          (∀ n ∈ outNeighbors tasks u, n ∈ v2) ∧ target ∉ outNeighbors tasks u))
  | 0, current, visited, path, v2, p2 => by
    intro _ hvn hvm hfuel _
    exfalso
    have := nodup_subset_length hvn (fun x hx => hvm x hx)
    omega
  | fuel + 1, current, visited, path, v2, p2 => by
    intro h hvn hvm hfuel hp
    rw [dfsVisit_succ] at h
    exact dfsNeighAux_false_post tasks target fuel
      (fun cur v p w2 q2 => dfsVisit_false_post tasks target fuel cur v p w2 q2)
      (outNeighbors tasks current) visited path v2 p2 h
      (fun n hn => outNeighbors_subset hn) hvn hvm (by omega) hp

/-- On a node that lies on a directed cycle, the depth-first search of
`find_cycle_description` succeeds. -/
theorem dfsVisit_finds_cycle (tasks : TaskMap) (t : String)
    (hcyc : Relation.TransGen (Edge tasks) t t) :
    ∃ v2 p2, dfsVisit tasks t ((taskNames tasks).length + 1) t [] [t] =
      (true, v2, p2) := by
  rcases hres : dfsVisit tasks t ((taskNames tasks).length + 1) t [] [t] with
    ⟨found, v2, p2⟩
  cases found
  · exfalso
    obtain ⟨ha, hb, hc, hd, he, hf⟩ :=
      dfsVisit_false_post tasks t ((taskNames tasks).length + 1) t [] [t] v2 p2 hres
        List.nodup_nil (by simp) (by simp) (by simp)
    obtain ⟨w, hrw, hew⟩ := Relation.TransGen.tail'_iff.mp hcyc
    have hclosed : ∀ x, Relation.ReflTransGen (Edge tasks) t x → x = t ∨ x ∈ v2 := by
      intro x hx
      induction hx with
      | refl => exact Or.inl rfl
      | tail hab hbc ih =>
        rcases ih with rfl | hy
        · exact Or.inr (hd _ (mem_outNeighbors_iff.mpr hbc))
        · exact Or.inr ((hf _ hy (by simp)).1 _ (mem_outNeighbors_iff.mpr hbc))
    rcases hclosed w hrw with rfl | hw
    · have htv2 : w ∈ v2 := hd _ (mem_outNeighbors_iff.mpr hew)
      exact (hf w htv2 (by simp)).2 (mem_outNeighbors_iff.mpr hew)
    · exact (hf w hw (by simp)).2 (mem_outNeighbors_iff.mpr hew)
  · exact ⟨v2, p2, rfl⟩

/-! ## The start loop of find_cycle_description -/

theorem firstCycleFromStarts_cons_true (tasks : TaskMap) (name : String)
    (rest : List String) {v2 p2 : List String}
    (h : dfsVisit tasks name ((taskNames tasks).length + 1) name [] [name] =
      (true, v2, p2)) :
    firstCycleFromStarts tasks (name :: rest) = some p2 := by
  rw [firstCycleFromStarts, h]

theorem firstCycleFromStarts_cons_false (tasks : TaskMap) (name : String)
    (rest : List String) {v2 p2 : List String}
    (h : dfsVisit tasks name ((taskNames tasks).length + 1) name [] [name] =
      (false, v2, p2)) :
    firstCycleFromStarts tasks (name :: rest) = firstCycleFromStarts tasks rest := by
  rw [firstCycleFromStarts, h]

theorem firstCycleFromStarts_some (tasks : TaskMap) :
    ∀ starts : List String,
      (∃ s ∈ starts, ∃ v2 p2,
        dfsVisit tasks s ((taskNames tasks).length + 1) s [] [s] = (true, v2, p2)) →
      ∃ path, firstCycleFromStarts tasks starts = some path
  | [], h => by simp at h
  | name :: rest, h => by
    rcases hres : dfsVisit tasks name ((taskNames tasks).length + 1) name [] [name] with
      ⟨found, v2, p2⟩
    cases found
    · obtain ⟨s, hs, w2, q2, hw⟩ := h
      rcases List.mem_cons.mp hs with rfl | hs2
      · rw [hres] at hw
        simp at hw
      · rw [firstCycleFromStarts_cons_false tasks name rest hres]
        exact firstCycleFromStarts_some tasks rest ⟨s, hs2, w2, q2, hw⟩
    · exact ⟨p2, firstCycleFromStarts_cons_true tasks name rest hres⟩

theorem firstCycleFromStarts_shape (tasks : TaskMap) :
    ∀ (starts : List String) (path : List String),
      firstCycleFromStarts tasks starts = some path →
      ∃ name ext, ext ≠ [] ∧ path = name :: ext ∧ path.getLast? = some name
  | [], path => by
    rw [firstCycleFromStarts]
    intro h
    cases h
  | name :: rest, path => by
    intro h
    rcases hres : dfsVisit tasks name ((taskNames tasks).length + 1) name [] [name] with
      ⟨found, v2, p2⟩
    cases found
    · rw [firstCycleFromStarts_cons_false tasks name rest hres] at h
      exact firstCycleFromStarts_shape tasks rest path h
    · rw [firstCycleFromStarts_cons_true tasks name rest hres] at h
      injection h with h
      obtain ⟨⟨ext, hne, hext⟩, hlast⟩ :=
        (dfsVisit_shape tasks name ((taskNames tasks).length + 1) name [] [name] v2 p2).1
          hres
      subst h
      exact ⟨name, ext, hne, by simpa using hext, hlast⟩

theorem findCycleDescription_eq (tasks : TaskMap) {path : List String}
    (h : firstCycleFromStarts tasks (taskNames tasks) = some path) :
    findCycleDescription tasks = String.intercalate " -> " path := by
  rw [findCycleDescription, h]

/-- On a cyclic graph, the cycle description joins a node sequence whose
first and last names coincide. -/
theorem findCycleDescription_shape (tasks : TaskMap) (hcyc : Cyclic tasks) :
    ∃ name ext, ext ≠ [] ∧
      findCycleDescription tasks = String.intercalate " -> " (name :: ext) ∧
      (name :: ext).getLast? = some name := by
  obtain ⟨a, ha⟩ := hcyc
  have hastart : a ∈ taskNames tasks := by
    obtain ⟨u, hru, hedge⟩ := Relation.TransGen.tail'_iff.mp ha
    exact edge_mem_names hedge
  obtain ⟨w2, q2, hw⟩ := dfsVisit_finds_cycle tasks a ha
  obtain ⟨path, hfc⟩ :=
    firstCycleFromStarts_some tasks (taskNames tasks) ⟨a, hastart, w2, q2, hw⟩
  obtain ⟨name, ext, hne, hext, hlast⟩ :=
    firstCycleFromStarts_shape tasks (taskNames tasks) path hfc
  refine ⟨name, ext, hne, ?_, ?_⟩
  · rw [findCycleDescription_eq tasks hfc, hext]
  · rw [← hext]
    exact hlast

theorem from_config_no_missing (tasks : TaskMap)
    (h : findMissing (taskNames tasks) tasks = none) :
    from_config tasks =
      if isCyclicB tasks then
        Except.error (GraphErr.cyclicDependency (findCycleDescription tasks))
      else Except.ok tasks := by
  rw [from_config, h]

/-! ## Claim C5 -/

/-- Claim C5: for a config whose dependencies all name defined tasks,
`from_config` succeeds exactly when the depends relation induces a DAG with
no self-loops (a self-loop being a length-one cycle); and whenever it fails
with CyclicDependency, the witness string joins a task-name path whose
first and last names are equal. -/
theorem from_config_acyclicity (tasks : TaskMap)
    (hdeps : ∀ p ∈ tasks, ∀ d ∈ p.2.depends, d ∈ taskNames tasks) :
    ((∃ g, from_config tasks = Except.ok g) ↔ ¬ Cyclic tasks) ∧
    (∀ w, from_config tasks = Except.error (GraphErr.cyclicDependency w) →
      ∃ name ext, ext ≠ [] ∧ w = String.intercalate " -> " (name :: ext) ∧
        (name :: ext).getLast? = some name) := by
  have hfm : findMissing (taskNames tasks) tasks = none :=
    (findMissing_eq_none (taskNames tasks) tasks).mpr
      (fun p hp d hd => List.elem_eq_true_of_mem (hdeps p hp d hd))
  constructor
  · constructor
    · rintro ⟨g, hg⟩ hcyc
      rw [from_config_no_missing tasks hfm, if_pos (isCyclicB_iff.mpr hcyc)] at hg
      cases hg
    · intro hnc
      refine ⟨tasks, ?_⟩
      rw [from_config_no_missing tasks hfm, if_neg (fun hb => hnc (isCyclicB_iff.mp hb))]
  · intro w hw
    rw [from_config_no_missing tasks hfm] at hw
    by_cases hb : isCyclicB tasks = true
    · rw [if_pos hb] at hw
      injection hw with hw
      injection hw with hw
      obtain ⟨name, ext, hne, heq, hlast⟩ :=
        findCycleDescription_shape tasks (isCyclicB_iff.mp hb)
      exact ⟨name, ext, hne, by rw [← hw, heq], hlast⟩
    · rw [if_neg hb] at hw
      cases hw

/-- Witness for C5 on a two-node cycle. -/
theorem from_config_acyclicity_witness :
    ((∃ g, from_config cycCfg = Except.ok g) ↔ ¬ Cyclic cycCfg) ∧
    (∀ w, from_config cycCfg = Except.error (GraphErr.cyclicDependency w) →
      ∃ name ext, ext ≠ [] ∧ w = String.intercalate " -> " (name :: ext) ∧
        (name :: ext).getLast? = some name) :=
  from_config_acyclicity cycCfg (by decide)

end Yatr
